import Mathlib

/-!
Verification of the quadtree image-compression engine
(`quad_tree_compression.py`): the quadtree node hierarchy, the greedy
`add_detail` refinement loop driven by a detail-ordered sorted list, and the
binary encode/decode format (bit-packed subdivision flags plus leaf colors).

Modelling conventions:
* a pixel is an RGB triple of naturals; a pixel buffer (`Region`) is a pair of
  dimensions together with a total indexing function `px y x` (numpy's
  row-major `image_data[y, x]`);
* numpy float statistics (`np.mean`, `np.std`) are modelled over `ℚ` / `ℝ`
  (`Real.sqrt` for the standard deviation), so the statistic definitions are
  `noncomputable` exactly where the source computes with floats;
* the LZMA wrapper (`lzma.compress` / `lzma.decompress`) is an external
  general-purpose lossless byte-stream compressor; the blob is modelled as the
  byte sequence before compression / after decompression;
* Python byte streams are `List ℕ`; `BytesIO.read(n)` at end-of-stream returns
  fewer bytes, and `int.from_bytes` of a short (possibly empty) read yields the
  little-endian value of whatever bytes were available — both are modelled
  exactly;
* the `ReconstructNode` constructor consumes two shared reversed stacks by
  popping from the back; popping from the back of the reversed stream is
  consuming the forward stream from the front, which is how the consumption is
  modelled (`buildRecon` takes forward lists and a fuel argument for
  termination bookkeeping).
-/

namespace QuadTree

/-- RGB pixel: three channel values (the source stores `np.uint8` values). -/
abbrev Pixel := ℕ × ℕ × ℕ

/-- Rectangular view into a pixel buffer: `width`, `height` and the row-major
indexing function `px y x` (mirrors a numpy array of shape `(height, width, 3)`). -/
structure Region where
  width : ℕ
  height : ℕ
  px : ℕ → ℕ → Pixel

/-- All channel values of the buffer are bytes (`np.uint8` contents). -/
def PixelsLT (r : Region) : Prop :=
  ∀ y x, (r.px y x).1 < 256 ∧ (r.px y x).2.1 < 256 ∧ (r.px y x).2.2 < 256

/-- Sub-view `image_data[startY : startY + h, startX : startX + w]`. -/
def subRegion (r : Region) (startX startY w h : ℕ) : Region :=
  ⟨w, h, fun y x => r.px (startY + y) (startX + x)⟩

/-- Channel accessor: channel 0 is red, 1 green, 2 blue. -/
def chan (p : Pixel) : ℕ → ℕ
  | 0 => p.1
  | 1 => p.2.1
  | _ => p.2.2

/-- Number of pixels of the region (`height * width`). -/
def pixelCount (r : Region) : ℕ := r.width * r.height

/-- Total number of array elements, numpy's `image_data.size` for an array of
shape `(height, width, 3)`. -/
def npSize (r : Region) : ℕ := r.width * r.height * 3

/-- Sum of one channel over the whole region. -/
def channelSum (r : Region) (c : ℕ) : ℚ :=
  ∑ y ∈ Finset.range r.height, ∑ x ∈ Finset.range r.width, (chan (r.px y x) c : ℚ)

/-- Per-channel arithmetic mean, `np.mean(image_data, axis=(0, 1))`. -/
def channelMean (r : Region) (c : ℕ) : ℚ :=
  channelSum r c / (pixelCount r : ℚ)

/-- Per-channel population variance (numpy's default `ddof = 0`). -/
def channelVar (r : Region) (c : ℕ) : ℚ :=
  (∑ y ∈ Finset.range r.height, ∑ x ∈ Finset.range r.width,
    ((chan (r.px y x) c : ℚ) - channelMean r c) ^ 2) / (pixelCount r : ℚ)

/-- Per-channel standard deviation, `np.std(image_data, axis=(0, 1))`. -/
noncomputable def channelStd (r : Region) (c : ℕ) : ℝ :=
  Real.sqrt ((channelVar r c : ℝ))

/-- Detail score of `CompressNode.__init__`:
`np.sum(np.std(image_data, axis=(0, 1))) * self.image_data.size`.
Note the weight is `image_data.size`, the number of array elements
(`height * width * 3`). -/
noncomputable def detailOf (r : Region) : ℝ :=
  (channelStd r 0 + channelStd r 1 + channelStd r 2) * (npSize r : ℝ)

/-- Detail score as the specification words it: the summed per-channel standard
deviations multiplied by the number of pixels in the region.  Stated only to be
compared with `detailOf`, the score the source computes. -/
noncomputable def detailSpec (r : Region) : ℝ :=
  (channelStd r 0 + channelStd r 1 + channelStd r 2) * (pixelCount r : ℝ)

/-- Mean channel value truncated to the integer range,
`np.mean(...).astype(np.uint8)` (the mean of byte values is a nonnegative
rational below 256, so truncation is the floor). -/
def meanByte (r : Region) (c : ℕ) : ℕ := (⌊channelMean r c⌋).toNat

/-- Mean color of the region, the `color` of a `CompressNode` leaf. -/
def meanColor (r : Region) : Pixel := (meanByte r 0, meanByte r 1, meanByte r 2)

/-!
The quadtree node.  A Python `QuadTreeNode` is either a leaf
(`is_subdivided = False`, no children) or subdivided with exactly four child
nodes; both variants carry `position`, `size`, an optional `color` (`None`
until assigned), and — for the `CompressNode` specialization — an optional
owned pixel-region view `image_data` plus the float `detail` score.
`ReconstructNode`s are represented by the same type with `img = none` and
`detail = 0` (they have no such attributes; `draw` never reads either field).
-/

/-- Quadtree node: `leaf` is a node with `is_subdivided = False`, `node` one
with `is_subdivided = True` and children in the order
bottom-left, bottom-right, top-left, top-right. -/
inductive CTree where
  | leaf (pos size : ℕ × ℕ) (color : Option Pixel) (img : Option Region) (detail : ℝ)
  | node (pos size : ℕ × ℕ) (color : Option Pixel) (img : Option Region) (detail : ℝ)
      (bl br tl tr : CTree)

namespace CTree

/-- Position of the node (`self.position`). -/
def pos : CTree → ℕ × ℕ
  | leaf p _ _ _ _ => p
  | node p _ _ _ _ _ _ _ _ => p

/-- Size of the node (`self.size`). -/
def size : CTree → ℕ × ℕ
  | leaf _ s _ _ _ => s
  | node _ s _ _ _ _ _ _ _ => s

/-- Color of the node (`self.color`). -/
def color : CTree → Option Pixel
  | leaf _ _ c _ _ => c
  | node _ _ c _ _ _ _ _ _ => c

/-- Owned pixel-region view (`self.image_data`). -/
def img : CTree → Option Region
  | leaf _ _ _ i _ => i
  | node _ _ _ i _ _ _ _ _ => i

/-- Detail score of the node (`self.detail`). -/
def detail : CTree → ℝ
  | leaf _ _ _ _ d => d
  | node _ _ _ _ d _ _ _ _ => d

/-- Whether the node is subdivided (`self.is_subdivided`). -/
def isSub : CTree → Bool
  | leaf _ _ _ _ _ => false
  | node _ _ _ _ _ _ _ _ _ => true

end CTree

/-- Construction of a `CompressNode` from a position and an owned pixel-region
view: the size is the view's shape, the color its truncated per-channel mean,
the detail its weighted summed standard deviation. -/
noncomputable def mkCompressNode (pos : ℕ × ℕ) (r : Region) : CTree :=
  .leaf pos (r.width, r.height) (some (meanColor r)) (some r) (detailOf r)

/-- Child rectangles of `QuadTreeNode.subdivide` for a node at `(x, y)` of size
`(width, height)`: positions and sizes of the bottom-left, bottom-right,
top-left and top-right children, using `split_width = width / 2` and
`split_height = height / 2` (floor division). -/
def subdivideRects (pos size : ℕ × ℕ) :
    ((ℕ × ℕ) × (ℕ × ℕ)) × ((ℕ × ℕ) × (ℕ × ℕ)) ×
    ((ℕ × ℕ) × (ℕ × ℕ)) × ((ℕ × ℕ) × (ℕ × ℕ)) :=
  let x := pos.1; let y := pos.2
  let width := size.1; let height := size.2
  let splitWidth := width / 2
  let splitHeight := height / 2
  (((x, y), (splitWidth, splitHeight)),
   ((x + splitWidth, y), (width - splitWidth, splitHeight)),
   ((x, y + splitHeight), (splitWidth, height - splitHeight)),
   ((x + splitWidth, y + splitHeight), (width - splitWidth, height - splitHeight)))

/-- Child `CompressNode` creation, `CompressNode._create_child_node`: the child
own a slice of the parent's view starting at the child position relative to
the parent. -/
noncomputable def createChild (ownPos : ℕ × ℕ) (r : Region)
    (rect : (ℕ × ℕ) × (ℕ × ℕ)) : CTree :=
  mkCompressNode rect.1 (subRegion r (rect.1.1 - ownPos.1) (rect.1.2 - ownPos.2) rect.2.1 rect.2.2)

/-- Subdivision of a `CompressNode` (`CompressNode.subdivide`, which runs
`QuadTreeNode.subdivide` and then releases `self.image_data`).  Returns the
updated node and the list of freshly created children (empty when the node was
already subdivided or its rectangle is irreducible).  The reducible-leaf case
with `img = none` cannot be reached through the compressor (the source would
fault on slicing `None`); it is given the no-op behavior. -/
noncomputable def subdivideC : CTree → CTree × List CTree
  | .node p s c _ d bl br tl tr => (.node p s c none d bl br tl tr, [])
  | .leaf p s c i d =>
    if s.1 ≤ 1 ∨ s.2 ≤ 1 then (.leaf p s c none d, [])
    else
      match i with
      | none => (.leaf p s c none d, [])
      | some r =>
        let rects := subdivideRects p s
        let bl := createChild p r rects.1
        let br := createChild p r rects.2.1
        let tl := createChild p r rects.2.2.1
        let tr := createChild p r rects.2.2.2
        (.node p s c none d bl br tl tr, [bl, br, tl, tr])

/-- Pre-order extraction of `CompressNode.extract_data`: appends
`is_subdivided` to the flag stream and, for a leaf, its color to the color
stream; children are visited bottom-left, bottom-right, top-left, top-right.
The source reads `r, g, b = self.color`, which presupposes a set color;
compressor leaves always carry one, and the default is immaterial. -/
def extractData : CTree → List Bool × List Pixel
  | .leaf _ _ c _ _ => ([false], [c.getD (0, 0, 0)])
  | .node _ _ _ _ _ bl br tl tr =>
    let e1 := extractData bl
    let e2 := extractData br
    let e3 := extractData tl
    let e4 := extractData tr
    (true :: (e1.1 ++ e2.1 ++ e3.1 ++ e4.1), e1.2 ++ e2.2 ++ e3.2 ++ e4.2)

/-- Pixel buffer being drawn into: a total assignment of pixels to coordinates
`(y, x)` (row-major, like the numpy target array). -/
abbrev Buffer := ℕ → ℕ → Pixel

/-- Solid fill of `QuadTreeNode.draw_self`:
`image_data[start_y : end_y, start_x : end_x] = color`. -/
def fill (pos size : ℕ × ℕ) (c : Pixel) (buf : Buffer) : Buffer :=
  fun y x =>
    if pos.2 ≤ y ∧ y < pos.2 + size.2 ∧ pos.1 ≤ x ∧ x < pos.1 + size.1 then c
    else buf y x

/-- Recursive draw of `QuadTreeNode.draw`: a subdivided node draws its four
children in order; a leaf paints its color over its rectangle, and a leaf whose
color was never set (`color is None`) draws nothing. -/
def drawTree : CTree → Buffer → Buffer
  | .leaf _ _ none _ _, buf => buf
  | .leaf p s (some c) _ _, buf => fill p s c buf
  | .node _ _ _ _ _ bl br tl tr, buf =>
    drawTree tr (drawTree tl (drawTree br (drawTree bl buf)))

/-- Pixel buffer of all zeros, `np.zeros(shape, dtype=np.uint8)`. -/
def zeroBuf : Buffer := fun _ _ => (0, 0, 0)

/-!
The `ImageCompressor`.  The Python object graph holds direct references to
child nodes; a node of the functional tree is addressed by the path of child
indices (0 = bottom-left, 1 = bottom-right, 2 = top-left, 3 = top-right) from
the root.  The `SortedListWithKey` keyed on `node.detail` is a list of
`(path, detail)` entries kept in ascending key order; `add` inserts after all
entries with a key not exceeding the new one (`bisect_right` placement) and
`pop()` removes the last, largest-key entry.
-/

/-- Path from the root to a node: child indices in `{0, 1, 2, 3}`. -/
abbrev Path := List ℕ

/-- Node of the tree reached by a path, if the path is valid. -/
def nodeAt : CTree → Path → Option CTree
  | t, [] => some t
  | .leaf _ _ _ _ _, _ :: _ => none
  | .node _ _ _ _ _ bl br tl tr, k :: rest =>
    match k with
    | 0 => nodeAt bl rest
    | 1 => nodeAt br rest
    | 2 => nodeAt tl rest
    | 3 => nodeAt tr rest
    | _ => none

/-- Detail of the node at a path. -/
noncomputable def detailAt (t : CTree) (p : Path) : Option ℝ :=
  (nodeAt t p).map CTree.detail

/-- The path addresses a node that is currently a leaf. -/
def isLeafAt (t : CTree) (p : Path) : Prop :=
  ∃ n, nodeAt t p = some n ∧ n.isSub = false

/-- Subdivision of the node at a path: the updated tree together with the
paths and details of the freshly created children, in creation order. -/
noncomputable def subdivideAt : CTree → Path → CTree × List (Path × ℝ)
  | t, [] =>
    let (t', cs) := subdivideC t
    (t', (cs.enum.map fun e => ([e.1], e.2.detail)))
  | .leaf p s c i d, _ :: _ => (.leaf p s c i d, [])
  | .node p s c i d bl br tl tr, k :: rest =>
    match k with
    | 0 => let r := subdivideAt bl rest
           (.node p s c i d r.1 br tl tr, r.2.map fun e => (0 :: e.1, e.2))
    | 1 => let r := subdivideAt br rest
           (.node p s c i d bl r.1 tl tr, r.2.map fun e => (1 :: e.1, e.2))
    | 2 => let r := subdivideAt tl rest
           (.node p s c i d bl br r.1 tr, r.2.map fun e => (2 :: e.1, e.2))
    | 3 => let r := subdivideAt tr rest
           (.node p s c i d bl br tl r.1, r.2.map fun e => (3 :: e.1, e.2))
    | _ => (.node p s c i d bl br tl tr, [])

/-- Insertion into the detail-ascending sorted list at the `bisect_right`
position: after every entry whose key is at most the new key. -/
noncomputable def slAdd : List (Path × ℝ) → Path × ℝ → List (Path × ℝ)
  | [], e => [e]
  | x :: xs, e => if e.2 < x.2 then e :: x :: xs else x :: slAdd xs e

/-- State of an `ImageCompressor`: the root `CompressNode`, the sorted list
`areas`, and the recorded image shape. -/
structure CState where
  root : CTree
  areas : List (Path × ℝ)
  width : ℕ
  height : ℕ

/-- Construction, `ImageCompressor.__init__`: root node over the whole image,
inserted into the empty sorted list. -/
noncomputable def initCompressor (imageData : Region) : CState :=
  { root := mkCompressNode (0, 0) imageData
    areas := slAdd [] ([], detailOf imageData)
    width := imageData.width
    height := imageData.height }

/-- One iteration of the `add_detail` loop: if `areas` is empty the iteration
breaks (no state change); otherwise the entry with most detail is popped, the
node it references subdivided, and every fresh child whose detail strictly
exceeds the threshold is inserted. -/
noncomputable def addDetailStep (s : CState) (threshold : ℝ) : CState :=
  match s.areas.getLast? with
  | none => s
  | some e =>
    let rest := s.areas.dropLast
    let r := subdivideAt s.root e.1
    let newAreas := r.2.foldl
      (fun a c => if threshold < c.2 then slAdd a c else a) rest
    { s with root := r.1, areas := newAreas }

/-- The method `ImageCompressor.add_detail(max_iterations, threshold)`:
`max_iterations` loop iterations (an iteration on an empty `areas` breaks, and
the loop body changes nothing from then on). -/
noncomputable def addDetail (s : CState) : ℕ → ℝ → CState
  | 0, _ => s
  | n + 1, th => addDetail (addDetailStep s th) n th

/-- Compressor states reachable from construction by any sequence of
`add_detail` calls with any step counts and thresholds (equivalently, by any
sequence of individual loop iterations, each with its own threshold). -/
inductive Reachable (imageData : Region) : CState → Prop where
  | init : Reachable imageData (initCompressor imageData)
  | step (s : CState) (th : ℝ) :
      Reachable imageData s → Reachable imageData (addDetailStep s th)

/-- The method `ImageCompressor.draw`: a fresh zeroed buffer of the original
shape, drawn by the root. -/
def CState.draw (s : CState) : Buffer := drawTree s.root zeroBuf

/-- The method `ImageCompressor.extract_data`. -/
def CState.extract (s : CState) : List Bool × List Pixel := extractData s.root

/-!
Binary codec.  A byte stream is a `List ℕ` of byte values.  `encode_uint32`
is `number.to_bytes(4, "little", signed=False)` (defined on numbers below
`2 ^ 32`; the masking written here is the identity there), `decode_uint32` /
`decode_uint8` are `int.from_bytes(data, "little")`, which accepts a short or
empty read and yields the value of whatever bytes are present.
-/

/-- Little-endian value of a byte list (`int.from_bytes(data, "little")`). -/
def fromLE (l : List ℕ) : ℕ := l.foldr (fun b acc => b + 256 * acc) 0

/-- Four little-endian bytes of `encode_uint32`. -/
def toLE4 (n : ℕ) : List ℕ :=
  [n % 256, n / 256 % 256, n / 256 ^ 2 % 256, n / 256 ^ 3 % 256]

/-- Single byte of `encode_uint8`. -/
def toLE1 (n : ℕ) : List ℕ := [n % 256]

/-- Reading one byte from the stream: `decode_uint8(stream.read(1))`; an
exhausted stream reads as the empty byte string, whose value is `0`. -/
def readByte : List ℕ → ℕ × List ℕ
  | [] => (0, [])
  | b :: rest => (b, rest)

/-- Packed flag byte number `byteIndex` of `encode_bitset`: bit `i mod 8` of
byte `i div 8` is set exactly when flag `i` exists and is `True`. -/
def packByte (flags : List Bool) (byteIndex : ℕ) : ℕ :=
  (List.range 8).foldl
    (fun byte bitIndex =>
      if flags.getD (byteIndex * 8 + bitIndex) false then byte ||| (1 <<< bitIndex)
      else byte)
    0

/-- Byte output of `encode_bitset`: a `uint32` flag count followed by
`ceil(count / 8)` packed bytes. -/
def encodeBitset (flags : List Bool) : List ℕ :=
  toLE4 flags.length ++ (List.range ((flags.length + 7) / 8)).map (packByte flags)

/-- Flag list rebuilt by the loop of `decode_bitset` from the declared `count`
and the packed bytes (byte `j` read as `bytes.getD j 0`: the `j`-th sequential
one-byte read, an exhausted stream reading as `0`); indices at or beyond
`count` are skipped. -/
def unpackFlags (count : ℕ) (bytes : List ℕ) : List Bool :=
  (List.range ((count + 7) / 8)).flatMap fun byteIndex =>
    (List.range 8).filterMap fun bitIndex =>
      if byteIndex * 8 + bitIndex < count then
        some (0 < bytes.getD byteIndex 0 &&& (1 <<< bitIndex))
      else none

/-- The function `decode_bitset`: reads the `uint32` count then
`ceil(count / 8)` bytes off the stream, returning the flags and the remaining
stream. -/
def decodeBitset (stream : List ℕ) : List Bool × List ℕ :=
  let count := fromLE (stream.take 4)
  let rest := stream.drop 4
  let byteCount := (count + 7) / 8
  (unpackFlags count (rest.take byteCount), rest.drop byteCount)

/-- Color bytes appended by `encode_image_data`: three `uint8` values per
color. -/
def colorBytes (colors : List Pixel) : List ℕ :=
  colors.flatMap fun c => toLE1 c.1 ++ toLE1 c.2.1 ++ toLE1 c.2.2

/-- Color-reading loop of `decode_image_data`: `count` colors of three
sequential one-byte reads each. -/
def readColors : ℕ → List ℕ → List Pixel × List ℕ
  | 0, s => ([], s)
  | n + 1, s =>
    let r := readByte s
    let g := readByte r.2
    let b := readByte g.2
    let rest := readColors n b.2
    ((r.1, g.1, b.1) :: rest.1, rest.2)

/-- The function `encode_image_data` up to the final LZMA wrapping: image
dimensions, bit-packed flags, then the leaf colors. -/
def encodeImageData (width height : ℕ) (flags : List Bool) (colors : List Pixel) :
    List ℕ :=
  toLE4 width ++ toLE4 height ++ encodeBitset flags ++ colorBytes colors

/-- The function `decode_image_data` after LZMA unwrapping: reads the
dimensions, the flag set, and then exactly one color per `False` flag. -/
def decodeImageData (stream : List ℕ) : ℕ × ℕ × List Bool × List Pixel :=
  let width := fromLE (stream.take 4)
  let s1 := stream.drop 4
  let height := fromLE (s1.take 4)
  let s2 := s1.drop 4
  let fl := decodeBitset s2
  let colorCount := (fl.1.filter (fun flag => !flag)).length
  (width, height, fl.1, (readColors colorCount fl.2).1)

/-- The method `ImageCompressor.encode_to_binary` (modulo the lossless LZMA
wrapper). -/
def CState.encodeToBinary (s : CState) : List ℕ :=
  encodeImageData s.width s.height s.extract.1 s.extract.2

/-!
Reconstruction.  A `ReconstructNode` consumes one flag at construction; on a
`True` flag it subdivides, its four children (bottom-left, bottom-right,
top-left, top-right, constructed in that order) consuming further items from
the same streams; on a `False` flag it consumes one color.  The inherited
`subdivide` still refuses an irreducible rectangle, in which case the node
silently stays a childless, colorless leaf.  Exhausted streams are an error
(`list.pop` from an empty list), modelled by `none`.  The fuel argument only
bounds the recursion depth; `flags.length + 1` is always sufficient.
-/

/-- Recursive `ReconstructNode` construction on forward flag/color streams. -/
def buildRecon : ℕ → (ℕ × ℕ) → (ℕ × ℕ) → List Bool → List Pixel →
    Option (CTree × List Bool × List Pixel)
  | 0, _, _, _, _ => none
  | _ + 1, _, _, [], _ => none
  | fuel + 1, pos, size, f :: fs, colors =>
    if f then
      if size.1 ≤ 1 ∨ size.2 ≤ 1 then
        some (.leaf pos size none none 0, fs, colors)
      else
        let rects := subdivideRects pos size
        match buildRecon fuel rects.1.1 rects.1.2 fs colors with
        | none => none
        | some (tbl, fs1, cs1) =>
          match buildRecon fuel rects.2.1.1 rects.2.1.2 fs1 cs1 with
          | none => none
          | some (tbr, fs2, cs2) =>
            match buildRecon fuel rects.2.2.1.1 rects.2.2.1.2 fs2 cs2 with
            | none => none
            | some (ttl, fs3, cs3) =>
              match buildRecon fuel rects.2.2.2.1 rects.2.2.2.2 fs3 cs3 with
              | none => none
              | some (ttr, fs4, cs4) =>
                some (.node pos size none none 0 tbl tbr ttl ttr, fs4, cs4)
    else
      match colors with
      | [] => none
      | c :: cs => some (.leaf pos size (some c) none 0, fs, cs)

/-- The function `reconstruct_quadtree`: decode the blob, then rebuild the
tree from the root rectangle `(0, 0), (width, height)`. -/
def reconstructQuadtree (data : List ℕ) : Option CTree :=
  let d := decodeImageData data
  (buildRecon (d.2.2.1.length + 1) (0, 0) (d.1, d.2.1) d.2.2.1 d.2.2.2).map
    fun r => r.1

/-- The function `reconstruct_image_data`: rebuild the tree and draw it onto a
zeroed buffer. -/
def reconstructImageData (data : List ℕ) : Option Buffer :=
  (reconstructQuadtree data).map fun t => drawTree t zeroBuf

/-!
Correctness of the bitset and blob codec.
-/

lemma fromLE_toLE4 (n : ℕ) (h : n < 2 ^ 32) : fromLE (toLE4 n) = n := by
  simp [fromLE, toLE4]
  omega

lemma testBit_orFold (g : ℕ → Bool) (S : List ℕ) (acc i : ℕ) :
    Nat.testBit (S.foldl (fun b k => if g k then b ||| (1 <<< k) else b) acc) i
      = (Nat.testBit acc i || S.any fun k => k == i && g k) := by
  induction S generalizing acc with
  | nil => simp
  | cons k S ih =>
    simp only [List.foldl_cons, List.any_cons, ih]
    cases hg : g k
    · simp [hg]
    · by_cases hk : k = i
      · subst hk
        simp [hg, Nat.testBit_or, Nat.one_shiftLeft, Nat.testBit_two_pow]
      · have hb : (k == i) = false := by simpa using hk
        simp [hg, Nat.testBit_or, Nat.one_shiftLeft, Nat.testBit_two_pow, hk, hb]

lemma any_range_eq (i n : ℕ) (hi : i < n) (g : ℕ → Bool) :
    ((List.range n).any fun k => k == i && g k) = g i := by
  cases hg : g i
  · rw [List.any_eq_false]
    intro k hk
    by_cases hki : k = i
    · subst hki; simp [hg]
    · simp [hki]
  · rw [List.any_eq_true]
    exact ⟨i, by simp [List.mem_range, hi, hg]⟩

lemma packByte_testBit (flags : List Bool) (j i : ℕ) (hi : i < 8) :
    Nat.testBit (packByte flags j) i = flags.getD (j * 8 + i) false := by
  unfold packByte
  rw [testBit_orFold, any_range_eq i 8 hi]
  simp

lemma decide_pos_and_shift (x k : ℕ) : decide (0 < x &&& (1 <<< k)) = x.testBit k := by
  rw [Nat.one_shiftLeft, Nat.and_two_pow]
  cases h : x.testBit k <;> simp [h, Nat.pos_pow_of_pos]

lemma flatMap_range8 {α : Type} (n : ℕ) (F : ℕ → Option α) :
    ((List.range n).flatMap fun j => (List.range 8).filterMap fun i => F (j * 8 + i))
      = (List.range (n * 8)).filterMap F := by
  induction n with
  | zero => simp
  | succ n ih =>
    rw [List.range_succ, List.flatMap_append, ih,
      show (n + 1) * 8 = n * 8 + 8 from by ring, List.range_add,
      List.filterMap_append, List.flatMap_cons, List.flatMap_nil,
      List.append_nil, List.filterMap_map]
    rfl

lemma filterMap_range_if {β : Type} (m count : ℕ) (g : ℕ → β) (h : count ≤ m) :
    ((List.range m).filterMap fun i => if i < count then some (g i) else none)
      = (List.range count).map g := by
  rw [show m = count + (m - count) from by omega, List.range_add,
    List.filterMap_append]
  have h1 : ((List.range count).filterMap fun i =>
      if i < count then some (g i) else none) = (List.range count).map g := by
    have hcongr : ∀ i ∈ List.range count,
        (if i < count then some (g i) else none) = some (g i) := by
      intro i hi
      rw [if_pos (List.mem_range.mp hi)]
    rw [List.filterMap_congr hcongr]
    exact List.filterMap_eq_map g ▸ rfl
  have h2 : (((List.range (m - count)).map fun x => count + x).filterMap fun i =>
      if i < count then some (g i) else none) = [] := by
    rw [List.filterMap_map]
    apply List.filterMap_eq_nil_iff.mpr
    intro i _
    simp only [Function.comp_apply]
    rw [if_neg (by omega)]
  rw [h1, h2, List.append_nil]

lemma unpackFlags_eq_map (count : ℕ) (bytes : List ℕ) :
    unpackFlags count bytes
      = (List.range count).map fun i =>
          decide (0 < bytes.getD (i / 8) 0 &&& (1 <<< (i % 8))) := by
  unfold unpackFlags
  have hcongr : ∀ j ∈ List.range ((count + 7) / 8),
      ((List.range 8).filterMap fun i =>
        if j * 8 + i < count then
          some (decide (0 < bytes.getD j 0 &&& (1 <<< i)))
        else none)
      = ((List.range 8).filterMap fun i =>
          if j * 8 + i < count then
            some (decide (0 < bytes.getD ((j * 8 + i) / 8) 0 &&&
              (1 <<< ((j * 8 + i) % 8))))
          else none) := by
    intro j _
    apply List.filterMap_congr
    intro i hi
    have hi8 : i < 8 := List.mem_range.mp hi
    have hdiv : (j * 8 + i) / 8 = j := by omega
    have hmod : (j * 8 + i) % 8 = i := by omega
    rw [hdiv, hmod]
  rw [List.flatMap_congr hcongr,
    flatMap_range8 ((count + 7) / 8) fun idx =>
      if idx < count then
        some (decide (0 < bytes.getD (idx / 8) 0 &&& (1 <<< (idx % 8))))
      else none,
    filterMap_range_if _ count _ (by omega)]

lemma unpack_pack (flags : List Bool) :
    unpackFlags flags.length
      ((List.range ((flags.length + 7) / 8)).map (packByte flags)) = flags := by
  rw [unpackFlags_eq_map]
  apply List.ext_getElem (by simp)
  intro i hi1 hi2
  simp only [List.getElem_map, List.getElem_range]
  have hi : i < flags.length := by simpa using hi2
  have hbyte : ((List.range ((flags.length + 7) / 8)).map (packByte flags)).getD
      (i / 8) 0 = packByte flags (i / 8) := by
    have : i / 8 < (flags.length + 7) / 8 := by omega
    simp [List.getD, List.getElem?_eq_getElem, this]
  rw [hbyte, decide_pos_and_shift, packByte_testBit flags (i / 8) (i % 8) (by omega)]
  have : i / 8 * 8 + i % 8 = i := by omega
  rw [this, List.getD_eq_getElem flags false hi]

lemma length_packBytes (flags : List Bool) :
    ((List.range ((flags.length + 7) / 8)).map (packByte flags)).length
      = (flags.length + 7) / 8 := by
  simp

lemma toLE4_append_take (n : ℕ) (l : List ℕ) : (toLE4 n ++ l).take 4 = toLE4 n :=
  List.take_left' rfl

lemma toLE4_append_drop (n : ℕ) (l : List ℕ) : (toLE4 n ++ l).drop 4 = l :=
  List.drop_left' rfl

lemma decodeBitset_encodeBitset (flags : List Bool) (rest : List ℕ)
    (h : flags.length < 2 ^ 32) :
    decodeBitset (encodeBitset flags ++ rest) = (flags, rest) := by
  simp only [decodeBitset, encodeBitset, List.append_assoc, toLE4_append_take,
    toLE4_append_drop, fromLE_toLE4 _ h]
  rw [List.take_left' (length_packBytes flags),
    List.drop_left' (length_packBytes flags), unpack_pack]

lemma readColors_colorBytes (colors : List Pixel) (rest : List ℕ)
    (hc : ∀ c ∈ colors, c.1 < 256 ∧ c.2.1 < 256 ∧ c.2.2 < 256) :
    readColors colors.length (colorBytes colors ++ rest) = (colors, rest) := by
  induction colors with
  | nil => simp [readColors, colorBytes]
  | cons c cs ih =>
    obtain ⟨h1, h2, h3⟩ := hc c (by simp)
    have hrec := ih fun x hx => hc x (by simp [hx])
    simp only [colorBytes, toLE1, List.append_assoc, List.singleton_append,
      List.cons_append, List.nil_append] at hrec
    simp [colorBytes, readColors, toLE1, readByte, Nat.mod_eq_of_lt, h1, h2, h3,
      hrec, List.flatMap_cons]

lemma decodeImageData_encodeImageData (w h : ℕ) (flags : List Bool)
    (colors : List Pixel) (hw : w < 2 ^ 32) (hh : h < 2 ^ 32)
    (hf : flags.length < 2 ^ 32)
    (hc : ∀ c ∈ colors, c.1 < 256 ∧ c.2.1 < 256 ∧ c.2.2 < 256)
    (hlen : colors.length = (flags.filter fun f => !f).length) :
    decodeImageData (encodeImageData w h flags colors) = (w, h, flags, colors) := by
  have hrc : readColors colors.length (colorBytes colors) = (colors, []) := by
    have := readColors_colorBytes colors [] hc
    simpa using this
  simp only [decodeImageData, encodeImageData, List.append_assoc, toLE4_append_take,
    toLE4_append_drop, fromLE_toLE4 _ hw, fromLE_toLE4 _ hh,
    decodeBitset_encodeBitset flags (colorBytes colors) hf, ← hlen, hrc]

/-!
Well-formed compressor trees.  Every tree the `ImageCompressor` can hold
satisfies this: leaves carry a byte-ranged color and (if still owned) a pixel
view matching their rectangle; subdivided nodes have a reducible rectangle and
children positioned exactly at the `subdivide` split rectangles.
-/

/-- Byte-range bound on a pixel. -/
def PixelLT (c : Pixel) : Prop := c.1 < 256 ∧ c.2.1 < 256 ∧ c.2.2 < 256

/-- Well-formedness of a compressor tree. -/
inductive WFC : CTree → Prop where
  | leaf (pos size : ℕ × ℕ) (c : Pixel) (img : Option Region) (d : ℝ)
      (hc : PixelLT c)
      (himg : ∀ r, img = some r →
        r.width = size.1 ∧ r.height = size.2 ∧ PixelsLT r) :
      WFC (.leaf pos size (some c) img d)
  | node (pos size : ℕ × ℕ) (c : Option Pixel) (img : Option Region) (d : ℝ)
      (bl br tl tr : CTree)
      (hw : 1 < size.1) (hh : 1 < size.2)
      (hbl : (bl.pos, bl.size) = (subdivideRects pos size).1)
      (hbr : (br.pos, br.size) = (subdivideRects pos size).2.1)
      (htl : (tl.pos, tl.size) = (subdivideRects pos size).2.2.1)
      (htr : (tr.pos, tr.size) = (subdivideRects pos size).2.2.2)
      (wbl : WFC bl) (wbr : WFC br) (wtl : WFC tl) (wtr : WFC tr) :
      WFC (.node pos size c img d bl br tl tr)

/-- Extraction writes one color per `False` flag. -/
lemma extract_colors_length (t : CTree) :
    (extractData t).2.length = ((extractData t).1.filter fun f => !f).length := by
  induction t with
  | leaf p s c i d => simp [extractData]
  | node p s c i d bl br tl tr ihbl ihbr ihtl ihtr =>
    simp [extractData, List.filter_append, ihbl, ihbr, ihtl, ihtr]

/-- Extraction of a well-formed tree yields byte-ranged colors. -/
lemma extract_colors_lt (t : CTree) (h : WFC t) :
    ∀ c ∈ (extractData t).2, PixelLT c := by
  induction h with
  | leaf p s c i d hc himg =>
    intro x hx
    simp [extractData] at hx
    simpa [hx] using hc
  | node p s c i d bl br tl tr hw hh hbl hbr htl htr wbl wbr wtl wtr
      ihbl ihbr ihtl ihtr =>
    intro x hx
    simp [extractData] at hx
    rcases hx with h | h | h | h
    · exact ihbl x h
    · exact ihbr x h
    · exact ihtl x h
    · exact ihtr x h

/-- Erasure of the compressor-only data (the pixel view and the detail score;
internal colors, which a `ReconstructNode` never assigns and `draw` never
reads): the shape a reconstruction of the extracted streams produces. -/
def erase : CTree → CTree
  | .leaf p s c _ _ => .leaf p s c none 0
  | .node p s _ _ _ bl br tl tr =>
    .node p s none none 0 (erase bl) (erase br) (erase tl) (erase tr)

/-- Reconstruction consumes exactly the extracted pre-order streams of a
well-formed tree and rebuilds the same geometry and leaf colors. -/
lemma buildRecon_extract (t : CTree) (hwf : WFC t) :
    ∀ (fuel : ℕ) (fs : List Bool) (cs : List Pixel),
      (extractData t).1.length < fuel →
      buildRecon fuel t.pos t.size ((extractData t).1 ++ fs) ((extractData t).2 ++ cs)
        = some (erase t, fs, cs) := by
  induction hwf with
  | leaf p s c i d hc himg =>
    intro fuel fs cs hfuel
    match fuel, hfuel with
    | fuel + 1, _ =>
      simp [extractData, buildRecon, erase, CTree.pos, CTree.size]
  | node p s c i d bl br tl tr hw hh hbl hbr htl htr wbl wbr wtl wtr
      ihbl ihbr ihtl ihtr =>
    intro fuel fs cs hfuel
    simp only [extractData, List.length_cons, List.length_append] at hfuel
    match fuel, hfuel with
    | fuel + 1, _ =>
      have hsz : ¬(s.1 ≤ 1 ∨ s.2 ≤ 1) := by omega
      have h1 : buildRecon fuel bl.pos bl.size
          ((extractData bl).1 ++ ((extractData br).1 ++ ((extractData tl).1 ++
            ((extractData tr).1 ++ fs))))
          ((extractData bl).2 ++ ((extractData br).2 ++ ((extractData tl).2 ++
            ((extractData tr).2 ++ cs))))
          = some (erase bl, (extractData br).1 ++ ((extractData tl).1 ++
              ((extractData tr).1 ++ fs)),
            (extractData br).2 ++ ((extractData tl).2 ++ ((extractData tr).2 ++ cs))) :=
        ihbl fuel _ _ (by omega)
      have h2 : buildRecon fuel br.pos br.size
          ((extractData br).1 ++ ((extractData tl).1 ++ ((extractData tr).1 ++ fs)))
          ((extractData br).2 ++ ((extractData tl).2 ++ ((extractData tr).2 ++ cs)))
          = some (erase br, (extractData tl).1 ++ ((extractData tr).1 ++ fs),
            (extractData tl).2 ++ ((extractData tr).2 ++ cs)) :=
        ihbr fuel _ _ (by omega)
      have h3 : buildRecon fuel tl.pos tl.size
          ((extractData tl).1 ++ ((extractData tr).1 ++ fs))
          ((extractData tl).2 ++ ((extractData tr).2 ++ cs))
          = some (erase tl, (extractData tr).1 ++ fs, (extractData tr).2 ++ cs) :=
        ihtl fuel _ _ (by omega)
      have h4 : buildRecon fuel tr.pos tr.size
          ((extractData tr).1 ++ fs) ((extractData tr).2 ++ cs)
          = some (erase tr, fs, cs) :=
        ihtr fuel _ _ (by omega)
      have hblpos : (subdivideRects p s).1.1 = bl.pos := congrArg Prod.fst hbl.symm
      have hblsz : (subdivideRects p s).1.2 = bl.size := congrArg Prod.snd hbl.symm
      have hbrpos : (subdivideRects p s).2.1.1 = br.pos := congrArg Prod.fst hbr.symm
      have hbrsz : (subdivideRects p s).2.1.2 = br.size := congrArg Prod.snd hbr.symm
      have htlpos : (subdivideRects p s).2.2.1.1 = tl.pos := congrArg Prod.fst htl.symm
      have htlsz : (subdivideRects p s).2.2.1.2 = tl.size := congrArg Prod.snd htl.symm
      have htrpos : (subdivideRects p s).2.2.2.1 = tr.pos := congrArg Prod.fst htr.symm
      have htrsz : (subdivideRects p s).2.2.2.2 = tr.size := congrArg Prod.snd htr.symm
      simp only [extractData, CTree.pos, CTree.size, List.cons_append,
        List.append_assoc]
      simp only [buildRecon, if_true, hsz, if_false, hblpos, hblsz, hbrpos, hbrsz,
        htlpos, htlsz, htrpos, htrsz, h1, h2, h3, h4, erase]

/-- Erasing the compressor-only data does not change what a tree draws. -/
lemma drawTree_erase (t : CTree) : ∀ buf, drawTree (erase t) buf = drawTree t buf := by
  induction t with
  | leaf p s c i d =>
    intro buf
    cases c <;> simp [erase, drawTree]
  | node p s c i d bl br tl tr ihbl ihbr ihtl ihtr =>
    intro buf
    simp [erase, drawTree, ihbl, ihbr, ihtl, ihtr]

/-!
Structural lemmas about paths, subdivision and well-formedness preservation.
-/

lemma pixelsLT_subRegion (r : Region) (h : PixelsLT r) (sx sy w hgt : ℕ) :
    PixelsLT (subRegion r sx sy w hgt) := by
  intro y x
  exact h (sy + y) (sx + x)

lemma channelMean_nonneg (r : Region) (c : ℕ) : 0 ≤ channelMean r c := by
  unfold channelMean channelSum
  apply div_nonneg _ (by positivity)
  apply Finset.sum_nonneg
  intro y _
  apply Finset.sum_nonneg
  intro x _
  positivity

lemma channelMean_le (r : Region) (c : ℕ) (h : PixelsLT r) :
    channelMean r c ≤ 255 := by
  unfold channelMean channelSum
  rcases Nat.eq_zero_or_pos (pixelCount r) with h0 | h0
  · rw [h0]
    norm_num
  · rw [div_le_iff₀ (by exact_mod_cast h0)]
    calc (∑ y ∈ Finset.range r.height, ∑ x ∈ Finset.range r.width,
            (chan (r.px y x) c : ℚ))
        ≤ ∑ y ∈ Finset.range r.height, ∑ x ∈ Finset.range r.width, (255 : ℚ) := by
          apply Finset.sum_le_sum
          intro y _
          apply Finset.sum_le_sum
          intro x _
          have hb : chan (r.px y x) c ≤ 255 := by
            obtain ⟨h1, h2, h3⟩ := h y x
            match c with
            | 0 => exact Nat.le_of_lt_succ h1
            | 1 => exact Nat.le_of_lt_succ h2
            | n + 2 => exact Nat.le_of_lt_succ h3
          exact_mod_cast hb
      _ = 255 * (pixelCount r : ℚ) := by
          simp [Finset.sum_const, pixelCount]
          ring

lemma meanByte_lt (r : Region) (c : ℕ) (h : PixelsLT r) : meanByte r c < 256 := by
  unfold meanByte
  have h1 : ⌊channelMean r c⌋ ≤ 255 := by
    have := Int.floor_mono (channelMean_le r c h)
    simpa using this
  omega

lemma meanColor_lt (r : Region) (h : PixelsLT r) : PixelLT (meanColor r) :=
  ⟨meanByte_lt r 0 h, meanByte_lt r 1 h, meanByte_lt r 2 h⟩

lemma wfc_mkCompressNode (pos : ℕ × ℕ) (r : Region) (h : PixelsLT r) :
    WFC (mkCompressNode pos r) :=
  WFC.leaf pos (r.width, r.height) (meanColor r) (some r) (detailOf r)
    (meanColor_lt r h)
    (fun r' hr' => by
      cases hr'
      exact ⟨rfl, rfl, h⟩)

lemma subdivideC_pos_size (t : CTree) :
    (subdivideC t).1.pos = t.pos ∧ (subdivideC t).1.size = t.size := by
  cases t with
  | node p s c i d bl br tl tr => simp [subdivideC, CTree.pos, CTree.size]
  | leaf p s c i d =>
    by_cases hs : s.1 ≤ 1 ∨ s.2 ≤ 1
    · simp [subdivideC, hs, CTree.pos, CTree.size]
    · cases i with
      | none => simp [subdivideC, hs, CTree.pos, CTree.size]
      | some r => simp [subdivideC, hs, CTree.pos, CTree.size]

lemma wfc_subdivideC (t : CTree) (h : WFC t) :
    WFC (subdivideC t).1 ∧ ∀ c ∈ (subdivideC t).2, WFC c := by
  cases h with
  | node p s c i d bl br tl tr hw hh hbl hbr htl htr wbl wbr wtl wtr =>
    constructor
    · exact WFC.node p s c none d bl br tl tr hw hh hbl hbr htl htr wbl wbr wtl wtr
    · intro x hx
      simp [subdivideC] at hx
  | leaf p s c i d hc himg =>
    by_cases hs : s.1 ≤ 1 ∨ s.2 ≤ 1
    · refine ⟨?_, ?_⟩
      · simp only [subdivideC, if_pos hs]
        exact WFC.leaf p s c none d hc (by simp)
      · intro x hx
        simp [subdivideC, hs] at hx
    · cases i with
      | none =>
        refine ⟨?_, ?_⟩
        · simp only [subdivideC, if_neg hs]
          exact WFC.leaf p s c none d hc (by simp)
        · intro x hx
          simp [subdivideC, hs] at hx
      | some r =>
        obtain ⟨hrw, hrh, hpx⟩ := himg r rfl
        have hchild : ∀ rect : (ℕ × ℕ) × (ℕ × ℕ), WFC (createChild p r rect) :=
          fun rect => wfc_mkCompressNode _ _ (pixelsLT_subRegion r hpx _ _ _ _)
        have hgeom : ∀ rect : (ℕ × ℕ) × (ℕ × ℕ),
            ((createChild p r rect).pos, (createChild p r rect).size) = rect := by
          intro rect
          simp [createChild, mkCompressNode, subRegion, CTree.pos, CTree.size]
        refine ⟨?_, ?_⟩
        · simp only [subdivideC, if_neg hs]
          exact WFC.node p s (some c) none d _ _ _ _
            (by omega) (by omega)
            (hgeom _) (hgeom _) (hgeom _) (hgeom _)
            (hchild _) (hchild _) (hchild _) (hchild _)
        · intro x hx
          simp only [subdivideC, if_neg hs] at hx
          simp at hx
          rcases hx with h | h | h | h <;>
            (subst h; exact hchild _)

lemma nodeAt_append (t : CTree) (p l : Path) :
    nodeAt t (p ++ l) = (nodeAt t p).bind fun n => nodeAt n l := by
  induction p generalizing t with
  | nil => simp [nodeAt]
  | cons a p ih =>
    cases t with
    | leaf q s c i d => simp [nodeAt]
    | node q s c i d bl br tl tr =>
      match a with
      | 0 => simpa [nodeAt] using ih bl
      | 1 => simpa [nodeAt] using ih br
      | 2 => simpa [nodeAt] using ih tl
      | 3 => simpa [nodeAt] using ih tr
      | n + 4 => simp [nodeAt]

/-- Extending a path past a leaf reaches nothing. -/
lemma nodeAt_past_leaf (t : CTree) (p : Path) (l : Path) (hl : l ≠ [])
    (hp : isLeafAt t p) : nodeAt t (p ++ l) = none := by
  obtain ⟨n, hn, hsub⟩ := hp
  rw [nodeAt_append, hn]
  cases n with
  | leaf q s c i d =>
    cases l with
    | nil => exact absurd rfl hl
    | cons a l => simp [nodeAt]
  | node q s c i d bl br tl tr => simp [CTree.isSub] at hsub

/-- Subdividing the node at one leaf path leaves the node at any other leaf
path untouched. -/
lemma nodeAt_subdivideAt_other (p : Path) :
    ∀ (t : CTree) (q : Path), isLeafAt t p → isLeafAt t q → p ≠ q →
      nodeAt (subdivideAt t p).1 q = nodeAt t q := by
  induction p with
  | nil =>
    intro t q hp hq hne
    obtain ⟨n, hn, hsub⟩ := hp
    simp only [nodeAt] at hn
    cases hn
    cases q with
    | nil => exact absurd rfl hne
    | cons b q =>
      obtain ⟨m, hm, _⟩ := hq
      cases t with
      | leaf ps s c i d => simp [nodeAt] at hm
      | node ps s c i d bl br tl tr => simp [CTree.isSub] at hsub
  | cons a p ih =>
    intro t q hp hq hne
    obtain ⟨n, hn, hsubn⟩ := hp
    cases t with
    | leaf ps s c i d => simp [nodeAt] at hn
    | node ps s c i d bl br tl tr =>
      cases q with
      | nil =>
        obtain ⟨m, hm, hsubm⟩ := hq
        simp only [nodeAt] at hm
        cases hm
        simp [CTree.isSub] at hsubm
      | cons b q =>
        by_cases hab : a = b
        · subst hab
          match a, hn with
          | 0, hn =>
            have hq' : isLeafAt bl q := by
              obtain ⟨m, hm, hsubm⟩ := hq
              exact ⟨m, by simpa [nodeAt] using hm, hsubm⟩
            have hp' : isLeafAt bl p := ⟨n, by simpa [nodeAt] using hn, hsubn⟩
            simpa [subdivideAt, nodeAt] using ih bl q hp' hq' (by simpa using hne)
          | 1, hn =>
            have hq' : isLeafAt br q := by
              obtain ⟨m, hm, hsubm⟩ := hq
              exact ⟨m, by simpa [nodeAt] using hm, hsubm⟩
            have hp' : isLeafAt br p := ⟨n, by simpa [nodeAt] using hn, hsubn⟩
            simpa [subdivideAt, nodeAt] using ih br q hp' hq' (by simpa using hne)
          | 2, hn =>
            have hq' : isLeafAt tl q := by
              obtain ⟨m, hm, hsubm⟩ := hq
              exact ⟨m, by simpa [nodeAt] using hm, hsubm⟩
            have hp' : isLeafAt tl p := ⟨n, by simpa [nodeAt] using hn, hsubn⟩
            simpa [subdivideAt, nodeAt] using ih tl q hp' hq' (by simpa using hne)
          | 3, hn =>
            have hq' : isLeafAt tr q := by
              obtain ⟨m, hm, hsubm⟩ := hq
              exact ⟨m, by simpa [nodeAt] using hm, hsubm⟩
            have hp' : isLeafAt tr p := ⟨n, by simpa [nodeAt] using hn, hsubn⟩
            simpa [subdivideAt, nodeAt] using ih tr q hp' hq' (by simpa using hne)
          | m + 4, hn => simp [nodeAt] at hn
        · match a, hn with
          | 0, hn =>
            match b with
            | 0 => exact absurd rfl hab
            | 1 => simp [subdivideAt, nodeAt]
            | 2 => simp [subdivideAt, nodeAt]
            | 3 => simp [subdivideAt, nodeAt]
            | m + 4 => simp [subdivideAt, nodeAt]
          | 1, hn =>
            match b with
            | 0 => simp [subdivideAt, nodeAt]
            | 1 => exact absurd rfl hab
            | 2 => simp [subdivideAt, nodeAt]
            | 3 => simp [subdivideAt, nodeAt]
            | m + 4 => simp [subdivideAt, nodeAt]
          | 2, hn =>
            match b with
            | 0 => simp [subdivideAt, nodeAt]
            | 1 => simp [subdivideAt, nodeAt]
            | 2 => exact absurd rfl hab
            | 3 => simp [subdivideAt, nodeAt]
            | m + 4 => simp [subdivideAt, nodeAt]
          | 3, hn =>
            match b with
            | 0 => simp [subdivideAt, nodeAt]
            | 1 => simp [subdivideAt, nodeAt]
            | 2 => simp [subdivideAt, nodeAt]
            | 3 => exact absurd rfl hab
            | m + 4 => simp [subdivideAt, nodeAt]
          | m + 4, hn => simp [nodeAt] at hn

/-- Subdivision at a valid path rewrites exactly that node and reports the
children (with their tree paths) that `subdivide` created there. -/
lemma subdivideAt_spec (p : Path) :
    ∀ (t n : CTree), nodeAt t p = some n →
      nodeAt (subdivideAt t p).1 p = some (subdivideC n).1 ∧
      (subdivideAt t p).2
        = ((subdivideC n).2.enum.map fun e => (p ++ [e.1], e.2.detail)) := by
  induction p with
  | nil =>
    intro t n hn
    simp only [nodeAt] at hn
    cases hn
    simp [subdivideAt, nodeAt]
  | cons a p ih =>
    intro t n hn
    cases t with
    | leaf ps s c i d => simp [nodeAt] at hn
    | node ps s c i d bl br tl tr =>
      match a, hn with
      | 0, hn =>
        obtain ⟨h1, h2⟩ := ih bl n (by simpa [nodeAt] using hn)
        refine ⟨by simpa [subdivideAt, nodeAt] using h1, ?_⟩
        simp [subdivideAt, h2, List.map_map, Function.comp_def]
      | 1, hn =>
        obtain ⟨h1, h2⟩ := ih br n (by simpa [nodeAt] using hn)
        refine ⟨by simpa [subdivideAt, nodeAt] using h1, ?_⟩
        simp [subdivideAt, h2, List.map_map, Function.comp_def]
      | 2, hn =>
        obtain ⟨h1, h2⟩ := ih tl n (by simpa [nodeAt] using hn)
        refine ⟨by simpa [subdivideAt, nodeAt] using h1, ?_⟩
        simp [subdivideAt, h2, List.map_map, Function.comp_def]
      | 3, hn =>
        obtain ⟨h1, h2⟩ := ih tr n (by simpa [nodeAt] using hn)
        refine ⟨by simpa [subdivideAt, nodeAt] using h1, ?_⟩
        simp [subdivideAt, h2, List.map_map, Function.comp_def]
      | m + 4, hn => simp [nodeAt] at hn

/-- Subdivision at an invalid path changes nothing and creates nothing. -/
lemma subdivideAt_invalid (p : Path) :
    ∀ (t : CTree), nodeAt t p = none →
      (subdivideAt t p).1 = t ∧ (subdivideAt t p).2 = [] := by
  induction p with
  | nil =>
    intro t hn
    simp [nodeAt] at hn
  | cons a p ih =>
    intro t hn
    cases t with
    | leaf ps s c i d => simp [subdivideAt]
    | node ps s c i d bl br tl tr =>
      match a, hn with
      | 0, hn =>
        obtain ⟨h1, h2⟩ := ih bl (by simpa [nodeAt] using hn)
        simp [subdivideAt, h1, h2]
      | 1, hn =>
        obtain ⟨h1, h2⟩ := ih br (by simpa [nodeAt] using hn)
        simp [subdivideAt, h1, h2]
      | 2, hn =>
        obtain ⟨h1, h2⟩ := ih tl (by simpa [nodeAt] using hn)
        simp [subdivideAt, h1, h2]
      | 3, hn =>
        obtain ⟨h1, h2⟩ := ih tr (by simpa [nodeAt] using hn)
        simp [subdivideAt, h1, h2]
      | m + 4, hn => simp [subdivideAt]

/-- Subdivision anywhere preserves the root position and size. -/
lemma subdivideAt_pos_size (p : Path) (t : CTree) :
    (subdivideAt t p).1.pos = t.pos ∧ (subdivideAt t p).1.size = t.size := by
  cases p with
  | nil => simpa [subdivideAt] using subdivideC_pos_size t
  | cons a p =>
    cases t with
    | leaf ps s c i d => simp [subdivideAt]
    | node ps s c i d bl br tl tr =>
      match a with
      | 0 => simp [subdivideAt, CTree.pos, CTree.size]
      | 1 => simp [subdivideAt, CTree.pos, CTree.size]
      | 2 => simp [subdivideAt, CTree.pos, CTree.size]
      | 3 => simp [subdivideAt, CTree.pos, CTree.size]
      | m + 4 => simp [subdivideAt, CTree.pos, CTree.size]

/-- Subdivision anywhere preserves well-formedness. -/
lemma wfc_subdivideAt (p : Path) :
    ∀ (t : CTree), WFC t → WFC (subdivideAt t p).1 := by
  induction p with
  | nil =>
    intro t hwf
    simpa [subdivideAt] using (wfc_subdivideC t hwf).1
  | cons a p ih =>
    intro t hwf
    cases hwf with
    | leaf ps s c i d hc himg =>
      simpa [subdivideAt] using WFC.leaf ps s c i d hc himg
    | node ps s c i d bl br tl tr hw hh hbl hbr htl htr wbl wbr wtl wtr =>
      have hps : ∀ u : CTree, (subdivideAt u p).1.pos = u.pos ∧
          (subdivideAt u p).1.size = u.size := fun u => subdivideAt_pos_size p u
      match a with
      | 0 =>
        refine WFC.node ps s c i d _ br tl tr hw hh ?_ hbr htl htr (ih bl wbl) wbr wtl wtr
        rw [(hps bl).1, (hps bl).2]
        exact hbl
      | 1 =>
        refine WFC.node ps s c i d bl _ tl tr hw hh hbl ?_ htl htr wbl (ih br wbr) wtl wtr
        rw [(hps br).1, (hps br).2]
        exact hbr
      | 2 =>
        refine WFC.node ps s c i d bl br _ tr hw hh hbl hbr ?_ htr wbl wbr (ih tl wtl) wtr
        rw [(hps tl).1, (hps tl).2]
        exact htl
      | 3 =>
        refine WFC.node ps s c i d bl br tl _ hw hh hbl hbr htl ?_ wbl wbr wtl (ih tr wtr)
        rw [(hps tr).1, (hps tr).2]
        exact htr
      | m + 4 =>
        exact WFC.node ps s c i d bl br tl tr hw hh hbl hbr htl htr wbl wbr wtl wtr

/-!
Sorted-list lemmas for the `areas` priority structure, and the compressor
invariant.
-/

/-- Key order on `areas` entries. -/
def keyLE (a b : Path × ℝ) : Prop := a.2 ≤ b.2

lemma slAdd_perm (l : List (Path × ℝ)) (e : Path × ℝ) :
    (slAdd l e).Perm (e :: l) := by
  induction l with
  | nil => simp [slAdd]
  | cons x xs ih =>
    by_cases h : e.2 < x.2
    · simp [slAdd, h]
    · simp only [slAdd, if_neg h]
      exact (List.Perm.cons x ih).trans (List.Perm.swap e x xs)

lemma mem_slAdd (l : List (Path × ℝ)) (e x : Path × ℝ) :
    x ∈ slAdd l e ↔ x = e ∨ x ∈ l := by
  rw [(slAdd_perm l e).mem_iff]
  simp

lemma slAdd_sorted (l : List (Path × ℝ)) (e : Path × ℝ)
    (h : List.Pairwise keyLE l) : List.Pairwise keyLE (slAdd l e) := by
  induction l with
  | nil => simp [slAdd]
  | cons x xs ih =>
    rcases List.pairwise_cons.mp h with ⟨hx, hxs⟩
    by_cases hlt : e.2 < x.2
    · simp only [slAdd, if_pos hlt]
      refine List.pairwise_cons.mpr ⟨?_, h⟩
      intro b hb
      rcases List.mem_cons.mp hb with rfl | hb
      · exact le_of_lt hlt
      · exact le_trans (le_of_lt hlt) (hx b hb)
    · simp only [slAdd, if_neg hlt]
      refine List.pairwise_cons.mpr ⟨?_, ih hxs⟩
      intro b hb
      rcases (mem_slAdd xs e b).mp hb with rfl | hb
      · exact not_lt.mp hlt
      · exact hx b hb

/-- Decomposition of a list at its reported last element. -/
lemma dropLast_append_of_getLast? {α : Type} (l : List α) (a : α)
    (h : l.getLast? = some a) : l.dropLast ++ [a] = l := by
  have hmem : a ∈ l.getLast? := h ▸ rfl
  obtain ⟨hne, rfl⟩ := List.mem_getLast?_eq_getLast hmem
  exact List.dropLast_append_getLast hne

/-- The last element of a key-sorted list bounds every element. -/
lemma sorted_le_getLast (l : List (Path × ℝ)) (a : Path × ℝ)
    (h : l.getLast? = some a) (hs : List.Pairwise keyLE l) :
    ∀ x ∈ l, x.2 ≤ a.2 := by
  intro x hx
  have hdec := dropLast_append_of_getLast? l a h
  rw [← hdec] at hx hs
  rcases List.mem_append.mp hx with hx | hx
  · exact (List.pairwise_append.mp hs).2.2 x hx a (by simp)
  · simp at hx
    simp [hx]

/-- Invariant maintained by the `ImageCompressor`: a well-formed root pinned
at the origin with the recorded shape; every `areas` entry references a
current leaf and caches its detail; entry paths are pairwise distinct; and the
list is sorted by detail ascending. -/
def Inv (s : CState) : Prop :=
  WFC s.root ∧
  s.root.pos = (0, 0) ∧
  s.root.size = (s.width, s.height) ∧
  (∀ e ∈ s.areas, isLeafAt s.root e.1 ∧ detailAt s.root e.1 = some e.2) ∧
  (s.areas.map Prod.fst).Nodup ∧
  List.Pairwise keyLE s.areas

lemma inv_init (imageData : Region) (h : PixelsLT imageData) :
    Inv (initCompressor imageData) := by
  refine ⟨wfc_mkCompressNode _ _ h, rfl, rfl, ?_, by simp [initCompressor, slAdd],
    by simp [initCompressor, slAdd]⟩
  intro e he
  simp [initCompressor, slAdd] at he
  subst he
  exact ⟨⟨_, rfl, rfl⟩, rfl⟩

/-- Children reported by `subdivideC` are the leaves found under the updated
node at their index, and they are leaves. -/
lemma subdivideC_children (n : CTree) :
    ∀ e ∈ (subdivideC n).2.enum,
      nodeAt (subdivideC n).1 [e.1] = some e.2 ∧ e.2.isSub = false := by
  cases n with
  | node p s c i d bl br tl tr =>
    intro e he
    simp [subdivideC] at he
  | leaf p s c i d =>
    by_cases hs : s.1 ≤ 1 ∨ s.2 ≤ 1
    · intro e he
      simp [subdivideC, hs] at he
    · cases i with
      | none =>
        intro e he
        simp [subdivideC, hs] at he
      | some r =>
        intro e he
        simp only [subdivideC, if_neg hs, List.enum] at he
        have he' : e ∈ [(0, createChild p r (subdivideRects p s).1),
            (1, createChild p r (subdivideRects p s).2.1),
            (2, createChild p r (subdivideRects p s).2.2.1),
            (3, createChild p r (subdivideRects p s).2.2.2)] := by
          simpa [List.enumFrom] using he
        simp only [List.mem_cons, List.not_mem_nil, or_false] at he'
        rcases he' with rfl | rfl | rfl | rfl <;>
          simp [subdivideC, hs, nodeAt, createChild, mkCompressNode, CTree.isSub]

/-- The conditional-insertion fold of `add_detail` preserves the entry
property, path distinctness and sortedness. -/
lemma foldl_insert_inv (th : ℝ) (P : Path × ℝ → Prop) :
    ∀ (cand init : List (Path × ℝ)),
      (∀ c ∈ cand, P c) → (∀ x ∈ init, P x) →
      (init.map Prod.fst ++ cand.map Prod.fst).Nodup →
      List.Pairwise keyLE init →
      (∀ x ∈ cand.foldl (fun a c => if th < c.2 then slAdd a c else a) init, P x) ∧
      ((cand.foldl (fun a c => if th < c.2 then slAdd a c else a) init).map
          Prod.fst).Nodup ∧
      List.Pairwise keyLE
        (cand.foldl (fun a c => if th < c.2 then slAdd a c else a) init) := by
  intro cand
  induction cand with
  | nil =>
    intro init h1 h2 h3 h4
    exact ⟨h2, by simpa using h3, h4⟩
  | cons c cs ih =>
    intro init h1 h2 h3 h4
    simp only [List.foldl_cons]
    have hmid : (init.map Prod.fst ++ (c.1 :: cs.map Prod.fst)).Nodup := by
      simpa using h3
    by_cases hth : th < c.2
    · rw [if_pos hth]
      apply ih
      · intro x hx
        exact h1 x (by simp [hx])
      · intro x hx
        rcases (mem_slAdd init c x).mp hx with rfl | hx
        · exact h1 x (by simp)
        · exact h2 x hx
      · have hp1 : ((slAdd init c).map Prod.fst).Perm (c.1 :: init.map Prod.fst) :=
          (slAdd_perm init c).map Prod.fst
        have hp2 : ((slAdd init c).map Prod.fst ++ cs.map Prod.fst).Perm
            (c.1 :: (init.map Prod.fst ++ cs.map Prod.fst)) := by
          refine (hp1.append (List.Perm.refl _)).trans ?_
          simp
        have hp3 : (c.1 :: (init.map Prod.fst ++ cs.map Prod.fst)).Perm
            (init.map Prod.fst ++ (c.1 :: cs.map Prod.fst)) :=
          List.perm_middle.symm
        exact ((hp2.trans hp3).nodup_iff).mpr hmid
      · exact slAdd_sorted init c h4
    · rw [if_neg hth]
      apply ih
      · intro x hx
        exact h1 x (by simp [hx])
      · exact h2
      · have hsub : (init.map Prod.fst ++ cs.map Prod.fst).Sublist
            (init.map Prod.fst ++ (c.1 :: cs.map Prod.fst)) :=
          List.Sublist.append_left (List.sublist_cons_self c.1 _) _
        exact hmid.sublist hsub
      · exact h4

/-- One `add_detail` iteration preserves the compressor invariant. -/
lemma inv_step (s : CState) (th : ℝ) (h : Inv s) : Inv (addDetailStep s th) := by
  obtain ⟨hwf, hpos, hsize, hmem, hnodup, hsort⟩ := h
  cases hlast : s.areas.getLast? with
  | none =>
    simp only [addDetailStep, hlast]
    exact ⟨hwf, hpos, hsize, hmem, hnodup, hsort⟩
  | some e =>
    have hdec := dropLast_append_of_getLast? _ _ hlast
    have heMem : e ∈ s.areas := by
      rw [← hdec]
      simp
    obtain ⟨hleaf, hdet⟩ := hmem e heMem
    obtain ⟨n, hn, hnsub⟩ := hleaf
    obtain ⟨hAt, hCand⟩ := subdivideAt_spec e.1 s.root n hn
    have hps := subdivideAt_pos_size e.1 s.root
    -- entries of the drop-last prefix have paths different from the popped one
    have hql : ∀ q ∈ s.areas.dropLast, q.1 ≠ e.1 := by
      intro q hq hqe
      have : (s.areas.dropLast.map Prod.fst ++ [e.1]).Nodup := by
        have := hnodup
        rw [← hdec] at this
        simpa using this
      rcases List.nodup_append.mp this with ⟨_, _, hdisj⟩
      exact hdisj (a := q.1) (List.mem_map_of_mem Prod.fst hq) (by simp [hqe])
    -- entry property for the surviving prefix
    have hPrest : ∀ q ∈ s.areas.dropLast,
        isLeafAt (subdivideAt s.root e.1).1 q.1 ∧
        detailAt (subdivideAt s.root e.1).1 q.1 = some q.2 := by
      intro q hq
      have hqmem : q ∈ s.areas := List.dropLast_subset _ hq
      obtain ⟨hql1, hqd⟩ := hmem q hqmem
      have hshield := nodeAt_subdivideAt_other e.1 s.root q.1
        ⟨n, hn, hnsub⟩ hql1 (fun hh => hql q hq hh.symm)
      constructor
      · obtain ⟨m, hm, hmsub⟩ := hql1
        exact ⟨m, by rw [hshield]; exact hm, hmsub⟩
      · unfold detailAt at hqd ⊢
        rw [hshield]
        exact hqd
    -- entry property for the freshly created children
    have hPcand : ∀ c ∈ (subdivideAt s.root e.1).2,
        isLeafAt (subdivideAt s.root e.1).1 c.1 ∧
        detailAt (subdivideAt s.root e.1).1 c.1 = some c.2 := by
      intro c hc
      rw [hCand] at hc
      obtain ⟨ie, hie, rfl⟩ := List.mem_map.mp hc
      obtain ⟨hchildAt, hchildLeaf⟩ := subdivideC_children n ie hie
      have hAppend : nodeAt (subdivideAt s.root e.1).1 (e.1 ++ [ie.1])
          = some ie.2 := by
        rw [nodeAt_append, hAt]
        simpa using hchildAt
      exact ⟨⟨ie.2, hAppend, hchildLeaf⟩, by unfold detailAt; rw [hAppend]; rfl⟩
    -- path distinctness of prefix plus children
    have hNodupAll : (s.areas.dropLast.map Prod.fst ++
        ((subdivideAt s.root e.1).2.map Prod.fst)).Nodup := by
      rw [List.nodup_append]
      refine ⟨?_, ?_, ?_⟩
      · have := hnodup
        rw [← hdec] at this
        simp only [List.map_append] at this
        exact (List.nodup_append.mp this).1
      · rw [hCand, List.map_map]
        have hinj : Function.Injective fun i : ℕ => e.1 ++ [i] := by
          intro a b hab
          simpa using List.append_cancel_left hab
        have : ((subdivideC n).2.enum.map fun x => e.1 ++ [x.1]).Nodup := by
          have h1 : ((subdivideC n).2.enum.map fun x => e.1 ++ [x.1])
              = ((subdivideC n).2.enum.map Prod.fst).map fun i => e.1 ++ [i] := by
            rw [List.map_map]
            rfl
          rw [h1, List.enum_map_fst]
          exact (List.nodup_range _).map hinj
        simpa [Function.comp_def] using this
      · intro a ha hb
        obtain ⟨q, hq, rfl⟩ := List.mem_map.mp ha
        obtain ⟨hql1, _⟩ := hmem q (List.dropLast_subset _ hq)
        rw [hCand] at hb
        simp only [List.map_map, List.mem_map] at hb
        obtain ⟨ie, _, hie⟩ := hb
        obtain ⟨m, hm, _⟩ := hql1
        have hie' : e.1 ++ [ie.1] = q.1 := by simpa using hie
        have hnone : nodeAt s.root (e.1 ++ [ie.1]) = none :=
          nodeAt_past_leaf s.root e.1 [ie.1] (by simp) ⟨n, hn, hnsub⟩
        rw [hie', hm] at hnone
        exact Option.noConfusion hnone
    have hSortRest : List.Pairwise keyLE s.areas.dropLast := by
      have := hsort
      rw [← hdec] at this
      exact (List.pairwise_append.mp this).1
    obtain ⟨hP, hN, hS⟩ := foldl_insert_inv th
      (fun x => isLeafAt (subdivideAt s.root e.1).1 x.1 ∧
        detailAt (subdivideAt s.root e.1).1 x.1 = some x.2)
      (subdivideAt s.root e.1).2 s.areas.dropLast hPcand hPrest
      (by
        rw [List.nodup_append] at hNodupAll ⊢
        exact ⟨hNodupAll.1, hNodupAll.2.1, fun a ha hb => hNodupAll.2.2 ha hb⟩)
      hSortRest
    simp only [addDetailStep, hlast]
    exact ⟨wfc_subdivideAt e.1 s.root hwf, hps.1.trans hpos, hps.2.trans hsize,
      hP, hN, hS⟩

/-- Every reachable compressor state of a byte-valued image satisfies the
invariant. -/
lemma reachable_inv (imageData : Region) (s : CState)
    (hr : Reachable imageData s) (hpx : PixelsLT imageData) : Inv s := by
  induction hr with
  | init => exact inv_init imageData hpx
  | step s th _ ih => exact inv_step s th ih

/-!
Small-step unfolding lemmas and statistics of degenerate regions, used to run
the compressor on concrete images.
-/

lemma addDetail_zero (s : CState) (th : ℝ) : addDetail s 0 th = s := rfl

lemma addDetail_succ (s : CState) (n : ℕ) (th : ℝ) :
    addDetail s (n + 1) th = addDetail (addDetailStep s th) n th := rfl

lemma addDetailStep_empty (s : CState) (th : ℝ) (h : s.areas = []) :
    addDetailStep s th = s := by
  simp [addDetailStep, h]

lemma addDetail_empty (s : CState) (k : ℕ) (th : ℝ) (h : s.areas = []) :
    addDetail s k th = s := by
  induction k with
  | zero => rfl
  | succ n ih => rw [addDetail_succ, addDetailStep_empty s th h, ih]

lemma channelVar_1x1 (r : Region) (hw : r.width = 1) (hh : r.height = 1)
    (c : ℕ) : channelVar r c = 0 := by
  unfold channelVar channelMean channelSum pixelCount
  rw [hw, hh]
  norm_num [Finset.sum_range_succ]

lemma detailOf_1x1 (r : Region) (hw : r.width = 1) (hh : r.height = 1) :
    detailOf r = 0 := by
  rw [detailOf, channelStd, channelStd, channelStd, channelVar_1x1 r hw hh,
    channelVar_1x1 r hw hh, channelVar_1x1 r hw hh]
  norm_num

lemma meanColor_1x1 (r : Region) (hw : r.width = 1) (hh : r.height = 1) :
    meanColor r = r.px 0 0 := by
  unfold meanColor meanByte channelMean channelSum pixelCount
  rw [hw, hh]
  rcases hpx : r.px 0 0 with ⟨a, b, c⟩
  norm_num [Finset.sum_range_succ, hpx, chan]

/-- The 2×2 uniform-color test image: every pixel is `(10, 20, 30)`. -/
def img2 : Region := ⟨2, 2, fun _ _ => (10, 20, 30)⟩

lemma channelVar_img2 (c : ℕ) : channelVar img2 c = 0 := by
  match c with
  | 0 =>
    norm_num [channelVar, channelMean, channelSum, pixelCount, img2, chan,
      Finset.sum_range_succ]
  | 1 =>
    norm_num [channelVar, channelMean, channelSum, pixelCount, img2, chan,
      Finset.sum_range_succ]
  | n + 2 =>
    have hc : chan (10, 20, 30) (n + 2) = 30 := rfl
    norm_num [channelVar, channelMean, channelSum, pixelCount, img2, hc,
      Finset.sum_range_succ]

lemma detailOf_img2 : detailOf img2 = 0 := by
  rw [detailOf, channelStd, channelStd, channelStd, channelVar_img2,
    channelVar_img2, channelVar_img2]
  norm_num

/-- Child leaf produced by subdividing the 2×2 uniform image: a 1×1 leaf of
the uniform color with zero detail. -/
noncomputable def img2child (a b : ℕ) : CTree :=
  CTree.leaf (a, b) (1, 1) (some (10, 20, 30)) (some (subRegion img2 a b 1 1)) 0

/-- State of the compressor on the 2×2 uniform image after `add_detail(1, 0)`:
root subdivided into four 1×1 leaves, priority structure empty. -/
noncomputable def s1img2 : CState :=
  { root := CTree.node (0, 0) (2, 2) (some (meanColor img2)) none (detailOf img2)
      (img2child 0 0) (img2child 1 0) (img2child 0 1) (img2child 1 1)
    areas := []
    width := 2
    height := 2 }

lemma addDetail_img2 : addDetail (initCompressor img2) 1 0 = s1img2 := by
  have hdet : detailOf ⟨1, 1, fun _ _ => (10, 20, 30)⟩ = 0 :=
    detailOf_1x1 _ rfl rfl
  have hmc : meanColor ⟨1, 1, fun _ _ => (10, 20, 30)⟩ = (10, 20, 30) := by
    rw [meanColor_1x1 _ rfl rfl]
  rw [addDetail_succ, addDetail_zero]
  unfold addDetailStep initCompressor
  norm_num [slAdd, subdivideAt, subdivideC, mkCompressNode, subdivideRects,
    createChild, List.enum, List.enumFrom, hdet, hmc, s1img2, img2child, img2,
    subRegion, CTree.detail]

/-!
A 3×4 image whose bottom-left child region (1 pixel wide, irreducible) has far
more detail than its reducible bottom-right sibling.  Red channel:

        x=0  x=1  x=2
  y=0    0   20    0
  y=1  200    0   20
  y=2    0    0    0
  y=3    0    0    0

green and blue are zero everywhere.
-/

/-- The 3×4 test image. -/
def img34 : Region :=
  ⟨3, 4, fun y x =>
    (if 1 < y then 0 else if x = 0 then 200 * y else 20 * ((x + y) % 2), 0, 0)⟩

lemma subRegion_width (r : Region) (a b w h : ℕ) :
    (subRegion r a b w h).width = w := rfl

lemma subRegion_height (r : Region) (a b w h : ℕ) :
    (subRegion r a b w h).height = h := rfl

lemma channelVar_img34_green (a b w h : ℕ) :
    channelVar (subRegion img34 a b w h) 1 = 0 := by
  have hz : ∀ y x, (chan ((subRegion img34 a b w h).px y x) 1 : ℚ) = 0 :=
    fun y x => rfl
  unfold channelVar channelMean channelSum
  simp [hz]

lemma channelVar_img34_blue (a b w h : ℕ) :
    channelVar (subRegion img34 a b w h) 2 = 0 := by
  have hz : ∀ y x, (chan ((subRegion img34 a b w h).px y x) 2 : ℚ) = 0 :=
    fun y x => rfl
  unfold channelVar channelMean channelSum
  simp [hz]

lemma detailOf_img34_bl : detailOf (subRegion img34 0 0 1 2) = 600 := by
  have h0 : channelVar (subRegion img34 0 0 1 2) 0 = 10000 := by
    norm_num [channelVar, channelMean, channelSum, pixelCount, subRegion, img34,
      chan, Finset.sum_range_succ]
  rw [detailOf, channelStd, channelStd, channelStd, h0, channelVar_img34_green,
    channelVar_img34_blue, show ((10000:ℚ):ℝ) = 100 ^ 2 by norm_num,
    Real.sqrt_sq (by norm_num : (0:ℝ) ≤ 100)]
  norm_num [npSize, subRegion_width, subRegion_height]

lemma detailOf_img34_br : detailOf (subRegion img34 1 0 2 2) = 120 := by
  have h0 : channelVar (subRegion img34 1 0 2 2) 0 = 100 := by
    norm_num [channelVar, channelMean, channelSum, pixelCount, subRegion, img34,
      chan, Finset.sum_range_succ]
  rw [detailOf, channelStd, channelStd, channelStd, h0, channelVar_img34_green,
    channelVar_img34_blue, show ((100:ℚ):ℝ) = 10 ^ 2 by norm_num,
    Real.sqrt_sq (by norm_num : (0:ℝ) ≤ 10)]
  norm_num [npSize, subRegion_width, subRegion_height]

lemma detailOf_img34_tl : detailOf (subRegion img34 0 2 1 2) = 0 := by
  have h0 : channelVar (subRegion img34 0 2 1 2) 0 = 0 := by
    norm_num [channelVar, channelMean, channelSum, pixelCount, subRegion, img34,
      chan, Finset.sum_range_succ]
  rw [detailOf, channelStd, channelStd, channelStd, h0, channelVar_img34_green,
    channelVar_img34_blue]
  norm_num

lemma detailOf_img34_tr : detailOf (subRegion img34 1 2 2 2) = 0 := by
  have h0 : channelVar (subRegion img34 1 2 2 2) 0 = 0 := by
    norm_num [channelVar, channelMean, channelSum, pixelCount, subRegion, img34,
      chan, Finset.sum_range_succ]
  rw [detailOf, channelStd, channelStd, channelStd, h0, channelVar_img34_green,
    channelVar_img34_blue]
  norm_num

lemma meanColor_img34_bl : meanColor (subRegion img34 0 0 1 2) = (100, 0, 0) := by
  norm_num [meanColor, meanByte, channelMean, channelSum, pixelCount, subRegion,
    img34, chan, Finset.sum_range_succ]
  decide

lemma meanColor_img34_br : meanColor (subRegion img34 1 0 2 2) = (10, 0, 0) := by
  norm_num [meanColor, meanByte, channelMean, channelSum, pixelCount, subRegion,
    img34, chan, Finset.sum_range_succ]
  decide

lemma meanColor_img34_tl : meanColor (subRegion img34 0 2 1 2) = (0, 0, 0) := by
  norm_num [meanColor, meanByte, channelMean, channelSum, pixelCount, subRegion,
    img34, chan, Finset.sum_range_succ]

lemma meanColor_img34_tr : meanColor (subRegion img34 1 2 2 2) = (0, 0, 0) := by
  norm_num [meanColor, meanByte, channelMean, channelSum, pixelCount, subRegion,
    img34, chan, Finset.sum_range_succ]

/-- State after one `add_detail` iteration on the 3×4 image: root subdivided,
the high-detail irreducible bottom-left leaf and the reducible bottom-right
leaf enqueued in ascending order. -/
noncomputable def s1img34 : CState :=
  { root := CTree.node (0, 0) (3, 4) (some (meanColor img34)) none (detailOf img34)
      (CTree.leaf (0, 0) (1, 2) (some (100, 0, 0)) (some (subRegion img34 0 0 1 2)) 600)
      (CTree.leaf (1, 0) (2, 2) (some (10, 0, 0)) (some (subRegion img34 1 0 2 2)) 120)
      (CTree.leaf (0, 2) (1, 2) (some (0, 0, 0)) (some (subRegion img34 0 2 1 2)) 0)
      (CTree.leaf (1, 2) (2, 2) (some (0, 0, 0)) (some (subRegion img34 1 2 2 2)) 0)
    areas := [([1], 120), ([0], 600)]
    width := 3
    height := 4 }

/-- State after the second iteration: the popped bottom-left leaf was
irreducible, so it stays a leaf (its view released) while only the
bottom-right entry remains queued. -/
noncomputable def s2img34 : CState :=
  { root := CTree.node (0, 0) (3, 4) (some (meanColor img34)) none (detailOf img34)
      (CTree.leaf (0, 0) (1, 2) (some (100, 0, 0)) none 600)
      (CTree.leaf (1, 0) (2, 2) (some (10, 0, 0)) (some (subRegion img34 1 0 2 2)) 120)
      (CTree.leaf (0, 2) (1, 2) (some (0, 0, 0)) (some (subRegion img34 0 2 1 2)) 0)
      (CTree.leaf (1, 2) (2, 2) (some (0, 0, 0)) (some (subRegion img34 1 2 2 2)) 0)
    areas := [([1], 120)]
    width := 3
    height := 4 }

lemma step1_img34 : addDetailStep (initCompressor img34) 0 = s1img34 := by
  unfold addDetailStep initCompressor
  norm_num [slAdd, subdivideAt, subdivideC, mkCompressNode, subdivideRects,
    createChild, List.enum, List.enumFrom, subRegion_width, subRegion_height,
    show img34.width = 3 from rfl, show img34.height = 4 from rfl,
    detailOf_img34_bl, detailOf_img34_br, detailOf_img34_tl, detailOf_img34_tr,
    meanColor_img34_bl, meanColor_img34_br, meanColor_img34_tl,
    meanColor_img34_tr, s1img34, CTree.detail]

lemma step2_img34 : addDetailStep s1img34 0 = s2img34 := by
  unfold addDetailStep s1img34
  norm_num [subdivideAt, subdivideC, List.enum, List.enumFrom, s2img34,
    CTree.detail]

lemma addDetail2_img34 : addDetail (initCompressor img34) 2 0 = s2img34 := by
  rw [addDetail_succ, addDetail_succ, addDetail_zero, step1_img34, step2_img34]

/-!
Geometric well-formedness (trees built by repeated subdivision) and the
coverage invariant: the leaf rectangles exactly tile the root rectangle.
-/

/-- Trees whose every subdivided node carries children placed exactly at the
`subdivide` split rectangles — the shape of every tree built from a root by
repeatedly calling `subdivide`. -/
inductive WFgeom : CTree → Prop where
  | leaf (p s : ℕ × ℕ) (c : Option Pixel) (i : Option Region) (d : ℝ) :
      WFgeom (.leaf p s c i d)
  | node (p s : ℕ × ℕ) (c : Option Pixel) (i : Option Region) (d : ℝ)
      (bl br tl tr : CTree)
      (hbl : (bl.pos, bl.size) = (subdivideRects p s).1)
      (hbr : (br.pos, br.size) = (subdivideRects p s).2.1)
      (htl : (tl.pos, tl.size) = (subdivideRects p s).2.2.1)
      (htr : (tr.pos, tr.size) = (subdivideRects p s).2.2.2)
      (wbl : WFgeom bl) (wbr : WFgeom br) (wtl : WFgeom tl) (wtr : WFgeom tr) :
      WFgeom (.node p s c i d bl br tl tr)

/-- Rectangles (position, size) of all leaves of a tree, in draw order. -/
def leafRects : CTree → List ((ℕ × ℕ) × (ℕ × ℕ))
  | .leaf p s _ _ _ => [(p, s)]
  | .node _ _ _ _ _ bl br tl tr =>
    leafRects bl ++ leafRects br ++ leafRects tl ++ leafRects tr

/-- Point membership in a rectangle given as (position, size). -/
def inRect (q : ℕ × ℕ) (rect : (ℕ × ℕ) × (ℕ × ℕ)) : Prop :=
  rect.1.1 ≤ q.1 ∧ q.1 < rect.1.1 + rect.2.1 ∧
  rect.1.2 ≤ q.2 ∧ q.2 < rect.1.2 + rect.2.2

instance (q : ℕ × ℕ) (rect : (ℕ × ℕ) × (ℕ × ℕ)) : Decidable (inRect q rect) := by
  unfold inRect
  infer_instance

/-- The four split rectangles partition the parent rectangle: every point lies
in exactly one of them iff it lies in the parent. -/
lemma subdivide_partition (pos size q : ℕ × ℕ) :
    ((if inRect q (subdivideRects pos size).1 then 1 else 0) +
     (if inRect q (subdivideRects pos size).2.1 then 1 else 0) +
     (if inRect q (subdivideRects pos size).2.2.1 then 1 else 0) +
     (if inRect q (subdivideRects pos size).2.2.2 then 1 else 0))
      = if inRect q (pos, size) then 1 else 0 := by
  rcases pos with ⟨x, y⟩
  rcases size with ⟨w, h⟩
  rcases q with ⟨qx, qy⟩
  simp only [subdivideRects, inRect]
  split_ifs <;> omega

/-- Coverage invariant: in a tree built by repeated subdivision, every point of
the root rectangle lies in exactly one leaf rectangle, and no point outside the
root rectangle lies in any. -/
lemma leafRects_tiling (t : CTree) (h : WFgeom t) : ∀ q : ℕ × ℕ,
    ((leafRects t).countP fun rect => decide (inRect q rect))
      = if inRect q (t.pos, t.size) then 1 else 0 := by
  induction h with
  | leaf p s c i d =>
    intro q
    simp [leafRects, List.countP_cons, CTree.pos, CTree.size]
  | node p s c i d bl br tl tr hbl hbr htl htr wbl wbr wtl wtr
      ihbl ihbr ihtl ihtr =>
    intro q
    have hposn : (CTree.node p s c i d bl br tl tr).pos = p := rfl
    have hsizen : (CTree.node p s c i d bl br tl tr).size = s := rfl
    simp only [leafRects, List.countP_append, ihbl, ihbr, ihtl, ihtr,
      hposn, hsizen]
    rw [show (bl.pos, bl.size) = (subdivideRects p s).1 from hbl,
      show (br.pos, br.size) = (subdivideRects p s).2.1 from hbr,
      show (tl.pos, tl.size) = (subdivideRects p s).2.2.1 from htl,
      show (tr.pos, tr.size) = (subdivideRects p s).2.2.2 from htr]
    exact subdivide_partition p s q

/-- Reading off the geometry of the four children `subdivide` creates on a
reducible, not-yet-subdivided `CompressNode`. -/
lemma subdivideC_child_geometry (pos size : ℕ × ℕ) (c : Option Pixel)
    (r : Region) (d : ℝ) (hw : 1 < size.1) (hh : 1 < size.2) :
    ((subdivideC (.leaf pos size c (some r) d)).2.map fun t => (t.pos, t.size))
      = [((pos.1, pos.2), (size.1 / 2, size.2 / 2)),
         ((pos.1 + size.1 / 2, pos.2), (size.1 - size.1 / 2, size.2 / 2)),
         ((pos.1, pos.2 + size.2 / 2), (size.1 / 2, size.2 - size.2 / 2)),
         ((pos.1 + size.1 / 2, pos.2 + size.2 / 2),
           (size.1 - size.1 / 2, size.2 - size.2 / 2))]
      ∧ (subdivideC (.leaf pos size c (some r) d)).1.isSub = true := by
  have hs : ¬(size.1 ≤ 1 ∨ size.2 ≤ 1) := by omega
  constructor
  · simp [subdivideC, hs, createChild, mkCompressNode, subdivideRects,
      subRegion_width, subRegion_height, CTree.pos, CTree.size]
  · simp [subdivideC, hs, CTree.isSub]

/-- An exhausted color stream reads back `count` black colors: every one-byte
read returns the empty byte string, which decodes to `0`. -/
lemma readColors_nil (n : ℕ) : readColors n [] = (List.replicate n (0, 0, 0), []) := by
  induction n with
  | zero => simp [readColors]
  | succ m ih => simp [readColors, readByte, ih, List.replicate_succ]

lemma getD_toLE4_append (n : ℕ) (l : List ℕ) (j d : ℕ) :
    (toLE4 n ++ l).getD (4 + j) d = l.getD j d := by
  have h4 : 4 + j = j + 1 + 1 + 1 + 1 := by omega
  rw [h4]
  simp [toLE4, List.getD_cons_succ]

lemma decodeBitset_encodeBitset' (flags : List Bool) (h : flags.length < 2 ^ 32) :
    decodeBitset (encodeBitset flags) = (flags, []) := by
  have := decodeBitset_encodeBitset flags [] h
  simpa using this

/-!
Claim theorems.
-/

/-- C1: for every byte-valued source pixel buffer and every number of
`add_detail` refinement iterations (including zero), decoding the blob
produced by `encode_to_binary` and rasterizing the reconstructed tree yields a
pixel buffer bit-for-bit equal (here: equal as a buffer) to the buffer
returned by the compressor's `draw()`.  The numeric bounds are the
`int.to_bytes(4, ...)` representability constraints of the encoder's `uint32`
fields. -/
theorem C1_encode_decode_draw_roundtrip (imageData : Region) (s : CState)
    (hr : Reachable imageData s) (hpx : PixelsLT imageData)
    (hw : s.width < 2 ^ 32) (hh : s.height < 2 ^ 32)
    (hf : (extractData s.root).1.length < 2 ^ 32) :
    reconstructImageData s.encodeToBinary = some s.draw := by
  obtain ⟨hwf, hpos, hsize, -, -, -⟩ := reachable_inv imageData s hr hpx
  have hlen := extract_colors_length s.root
  have hcolors : ∀ c ∈ (extractData s.root).2,
      c.1 < 256 ∧ c.2.1 < 256 ∧ c.2.2 < 256 :=
    fun c hc => extract_colors_lt s.root hwf c hc
  have hdec : decodeImageData (encodeImageData s.width s.height
      (extractData s.root).1 (extractData s.root).2)
      = (s.width, s.height, (extractData s.root).1, (extractData s.root).2) :=
    decodeImageData_encodeImageData _ _ _ _ hw hh hf hcolors hlen
  have hbuild := buildRecon_extract s.root hwf ((extractData s.root).1.length + 1)
    [] [] (by omega)
  rw [List.append_nil, List.append_nil, hpos, hsize] at hbuild
  have hbuild' : buildRecon ((extractData s.root).1.length + 1) 0
      (s.width, s.height) (extractData s.root).1 (extractData s.root).2
      = some (erase s.root, [], []) := by
    simpa using hbuild
  simp only [reconstructImageData, reconstructQuadtree, CState.encodeToBinary,
    CState.extract, hdec, CState.draw]
  simp [hbuild', drawTree_erase]

/-- C1 witness: the round trip at a concrete 1×1 image with zero refinement
steps. -/
theorem C1_roundtrip_witness :
    reconstructImageData
        (CState.encodeToBinary (initCompressor ⟨1, 1, fun _ _ => (5, 6, 7)⟩))
      = some (CState.draw (initCompressor ⟨1, 1, fun _ _ => (5, 6, 7)⟩)) :=
  C1_encode_decode_draw_roundtrip _ _ Reachable.init
    (fun y x => by norm_num)
    (by norm_num [initCompressor])
    (by norm_num [initCompressor])
    (by norm_num [initCompressor, mkCompressNode, extractData])

/-- Two-pixel region (1 wide, 2 tall) with red values 0 and 2: the failing
input for the detail-weight claim. -/
def rC2 : Region := ⟨1, 2, fun y _ => (2 * y, 0, 0)⟩

/-- C2: the detail the code computes on `rC2` is 6 — the summed standard
deviations (1) times `image_data.size = 3 × pixel count = 6` — while the
claimed formula (standard deviations times the pixel count, which is also what
the code's own comment says) gives 2.  The code contradicts its documented
intent. -/
theorem C2_detail_weight_mismatch :
    detailOf rC2 = 6 ∧ detailSpec rC2 = 2 ∧ pixelCount rC2 = 2 ∧
      npSize rC2 = 6 ∧ detailOf rC2 ≠ detailSpec rC2 := by
  have h0 : channelVar rC2 0 = 1 := by
    norm_num [channelVar, channelMean, channelSum, pixelCount, rC2, chan,
      Finset.sum_range_succ]
  have h1 : channelVar rC2 1 = 0 := by
    norm_num [channelVar, channelMean, channelSum, pixelCount, rC2, chan,
      Finset.sum_range_succ]
  have h2 : channelVar rC2 2 = 0 := by
    norm_num [channelVar, channelMean, channelSum, pixelCount, rC2, chan,
      Finset.sum_range_succ]
  have hstd : channelStd rC2 0 = 1 ∧ channelStd rC2 1 = 0 ∧ channelStd rC2 2 = 0 := by
    rw [channelStd, channelStd, channelStd, h0, h1, h2]
    norm_num
  refine ⟨?_, ?_, by norm_num [pixelCount, rC2], by norm_num [npSize, rC2], ?_⟩
  · rw [detailOf, hstd.1, hstd.2.1, hstd.2.2]
    norm_num [npSize, rC2]
  · rw [detailSpec, hstd.1, hstd.2.1, hstd.2.2]
    norm_num [pixelCount, rC2]
  · rw [detailOf, detailSpec, hstd.1, hstd.2.1, hstd.2.2]
    norm_num [npSize, pixelCount, rC2]

/-- C3: `encode_bitset` packs flag `i` into byte `i div 8` (after the 4-byte
count) at bit value `1 <<< (i mod 8)` (LSB-first); `decode_bitset` ignores
trailing bits in the final byte beyond the count (two byte streams agreeing on
the first `count` bit positions decode identically); and decoding the bytes
written by `encode_bitset` returns exactly the original flag list. -/
theorem C3_bitset_lsb_first_roundtrip :
    (∀ (flags : List Bool) (i : ℕ) (h : i < flags.length),
        Nat.testBit ((encodeBitset flags).getD (4 + i / 8) 0) (i % 8)
          = flags.get ⟨i, h⟩)
  ∧ (∀ (count : ℕ) (b1 b2 : List ℕ),
        (∀ i < count,
          (0 < b1.getD (i / 8) 0 &&& (1 <<< (i % 8))) ↔
          (0 < b2.getD (i / 8) 0 &&& (1 <<< (i % 8)))) →
        unpackFlags count b1 = unpackFlags count b2)
  ∧ (∀ flags : List Bool, flags.length < 2 ^ 32 →
        decodeBitset (encodeBitset flags) = (flags, [])) := by
  refine ⟨?_, ?_, decodeBitset_encodeBitset'⟩
  · intro flags i h
    rw [encodeBitset, getD_toLE4_append]
    have hbyte : ((List.range ((flags.length + 7) / 8)).map (packByte flags)).getD
        (i / 8) 0 = packByte flags (i / 8) := by
      have hlt : i / 8 < (flags.length + 7) / 8 := by omega
      simp [List.getD, List.getElem?_eq_getElem, hlt]
    rw [hbyte, packByte_testBit flags (i / 8) (i % 8) (by omega),
      show i / 8 * 8 + i % 8 = i from by omega, List.getD_eq_getElem flags false h]
    simp
  · intro count b1 b2 hagree
    rw [unpackFlags_eq_map, unpackFlags_eq_map]
    apply List.map_congr_left
    intro i hi
    exact decide_eq_decide.mpr (hagree i (List.mem_range.mp hi))

/-- C3 witness: the three conjuncts at concrete inputs — flag 2 of a 3-flag
set sits at bit 2 of the first packed byte; one byte stream with garbage in
the 7 trailing bits decodes like the clean one; a concrete round trip. -/
theorem C3_bitset_witness :
    Nat.testBit ((encodeBitset [true, false, true]).getD (4 + 2 / 8) 0) (2 % 8)
        = ([true, false, true].get ⟨2, by norm_num⟩)
  ∧ unpackFlags 1 [1] = unpackFlags 1 [255]
  ∧ decodeBitset (encodeBitset [true, false, true]) = ([true, false, true], []) :=
  ⟨C3_bitset_lsb_first_roundtrip.1 [true, false, true] 2 (by norm_num),
   C3_bitset_lsb_first_roundtrip.2.1 1 [1] [255]
     (by
       intro i hi
       interval_cases i
       decide),
   C3_bitset_lsb_first_roundtrip.2.2 [true, false, true] (by norm_num)⟩

/-- C4: subdividing a not-yet-subdivided node with width > 1 and height > 1
creates exactly four children at the split rectangles — sizes
`(w / 2, h / 2)`, `(w − w / 2, h / 2)` at x-offset `w / 2`,
`(w / 2, h − h / 2)` at y-offset `h / 2`, and `(w − w / 2, h − h / 2)` at both
offsets — and in every tree built by repeated subdivision the leaf rectangles
exactly tile the root rectangle: each point of the root rectangle lies in
exactly one leaf rectangle and points outside it in none. -/
theorem C4_subdivision_geometry_and_tiling :
    (∀ (pos size : ℕ × ℕ) (c : Option Pixel) (r : Region) (d : ℝ),
        1 < size.1 → 1 < size.2 →
        ((subdivideC (.leaf pos size c (some r) d)).2.map fun t => (t.pos, t.size))
            = [((pos.1, pos.2), (size.1 / 2, size.2 / 2)),
               ((pos.1 + size.1 / 2, pos.2), (size.1 - size.1 / 2, size.2 / 2)),
               ((pos.1, pos.2 + size.2 / 2), (size.1 / 2, size.2 - size.2 / 2)),
               ((pos.1 + size.1 / 2, pos.2 + size.2 / 2),
                 (size.1 - size.1 / 2, size.2 - size.2 / 2))]
          ∧ (subdivideC (.leaf pos size c (some r) d)).1.isSub = true)
  ∧ (∀ (t : CTree), WFgeom t → ∀ q : ℕ × ℕ,
        ((leafRects t).countP fun rect => decide (inRect q rect))
          = if inRect q (t.pos, t.size) then 1 else 0) :=
  ⟨fun pos size c r d hw hh => subdivideC_child_geometry pos size c r d hw hh,
   leafRects_tiling⟩

/-- C4 witness: the child geometry of a 3×3 node (odd dimensions split with no
rounding loss) and the tiling count at a point of a concrete tree. -/
theorem C4_subdivision_witness :
    ((subdivideC (CTree.leaf (0, 0) (3, 3) none
          (some ⟨3, 3, fun _ _ => (0, 0, 0)⟩) 0)).2.map fun t => (t.pos, t.size))
        = [((0, 0), (1, 1)), ((1, 0), (2, 1)), ((0, 1), (1, 2)), ((1, 1), (2, 2))]
  ∧ ((leafRects (CTree.leaf (0, 0) (5, 5) none none 0)).countP
        fun rect => decide (inRect (2, 2) rect)) = 1 := by
  constructor
  · have h1 := C4_subdivision_geometry_and_tiling.1 (0, 0) (3, 3) none
      ⟨3, 3, fun _ _ => (0, 0, 0)⟩ 0 (by norm_num) (by norm_num)
    rw [h1.1]
    norm_num
  · have h2 := C4_subdivision_geometry_and_tiling.2
      (CTree.leaf (0, 0) (5, 5) none none 0) (WFgeom.leaf _ _ _ _ _) (2, 2)
    rw [h2]
    norm_num [CTree.pos, CTree.size, inRect]

/-- C5 counterexample: on `img34`, after two `add_detail` iterations with
threshold 0, the entry to be popped next is the bottom-right node of detail
120, while the bottom-left node — popped earlier as irreducible and still a
leaf — has detail 600 > 120.  The popped node's detail is not ≥ every current
leaf's detail. -/
theorem C5_popped_not_max_leaf_counterexample :
    (addDetail (initCompressor img34) 2 0).areas.getLast? = some ([1], 120)
  ∧ detailAt (addDetail (initCompressor img34) 2 0).root [1] = some 120
  ∧ isLeafAt (addDetail (initCompressor img34) 2 0).root [0]
  ∧ detailAt (addDetail (initCompressor img34) 2 0).root [0] = some 600
  ∧ ¬((600 : ℝ) ≤ 120) := by
  rw [addDetail2_img34]
  refine ⟨by simp [s2img34], ?_, ?_, ?_, by norm_num⟩
  · simp [s2img34, detailAt, nodeAt, CTree.detail]
  · exact ⟨CTree.leaf (0, 0) (1, 2) (some (100, 0, 0)) none 600,
      by simp [s2img34, nodeAt], rfl⟩
  · simp [s2img34, detailAt, nodeAt, CTree.detail]

/-- C5 amended: at every step, the node popped by `add_detail` has detail ≥
the detail of every node currently in the priority structure (the sorted list
pops its maximum).  It need not dominate every current leaf: leaves pruned by
the threshold or popped irreducible leaves are no longer in the structure and
may hold more detail. -/
theorem C5_amended_popped_is_max_of_queue (imageData : Region) (s : CState)
    (e : Path × ℝ) (hr : Reachable imageData s) (hpx : PixelsLT imageData)
    (hlast : s.areas.getLast? = some e) :
    detailAt s.root e.1 = some e.2 ∧ ∀ x ∈ s.areas, x.2 ≤ e.2 := by
  obtain ⟨-, -, -, hmem, -, hsort⟩ := reachable_inv imageData s hr hpx
  have heMem : e ∈ s.areas := by
    have hdec := dropLast_append_of_getLast? _ _ hlast
    rw [← hdec]
    simp
  exact ⟨(hmem e heMem).2, sorted_le_getLast s.areas e hlast hsort⟩

/-- C5 amended witness: at the freshly constructed compressor on the uniform
2×2 image, the single queued entry (the root) is popped and dominates the
queue. -/
theorem C5_amended_witness :
    detailAt (initCompressor img2).root [] = some (detailOf img2)
  ∧ ∀ x ∈ (initCompressor img2).areas, x.2 ≤ detailOf img2 :=
  C5_amended_popped_is_max_of_queue img2 _ ([], detailOf img2) Reachable.init
    (fun y x => by norm_num [img2]) (by simp [initCompressor, slAdd])

/-- C6 counterexample: after `add_detail(1, 0)` on the uniform 2×2 image the
bottom-left child is a leaf of the tree but the priority structure is empty —
the structure does not contain every current leaf. -/
theorem C6_leaf_missing_from_areas_counterexample :
    isLeafAt (addDetail (initCompressor img2) 1 0).root [0]
  ∧ (addDetail (initCompressor img2) 1 0).areas = [] := by
  rw [addDetail_img2]
  exact ⟨⟨img2child 0 0, by simp [s1img2, img2child, nodeAt], rfl⟩, rfl⟩

/-- C6 amended: in every reachable compressor state, the priority structure
contains only current leaves of the tree, each path at most once (internal
nodes are absent) — but not every leaf need be present: children at or below
the threshold and popped irreducible leaves remain leaves outside the
structure. -/
theorem C6_amended_areas_only_leaves (imageData : Region) (s : CState)
    (hr : Reachable imageData s) (hpx : PixelsLT imageData) :
    (∀ e ∈ s.areas, isLeafAt s.root e.1) ∧ (s.areas.map Prod.fst).Nodup := by
  obtain ⟨-, -, -, hmem, hnodup, -⟩ := reachable_inv imageData s hr hpx
  exact ⟨fun e he => (hmem e he).1, hnodup⟩

/-- C6 amended witness: the invariant at the freshly constructed compressor on
the uniform 2×2 image. -/
theorem C6_amended_witness :
    (∀ e ∈ (initCompressor img2).areas, isLeafAt (initCompressor img2).root e.1)
  ∧ ((initCompressor img2).areas.map Prod.fst).Nodup :=
  C6_amended_areas_only_leaves img2 _ Reachable.init (fun y x => by norm_num [img2])

/-- C7 counterexample: a structurally valid blob truncated before its color
bytes (width 1, height 1, one `False` flag, no color data) decodes without any
error to a black leaf color `(0, 0, 0)` — the decoder silently substitutes
defaults instead of failing. -/
theorem C7_truncation_not_error_counterexample :
    decodeImageData [1, 0, 0, 0, 1, 0, 0, 0, 1, 0, 0, 0, 0]
      = (1, 1, [false], [(0, 0, 0)]) := by
  decide

/-- C7 amended: `decode_image_data` never fails on a blob truncated at the
color stream: `BytesIO.read` returns short data and `int.from_bytes` of an
empty read is 0, so every missing color byte silently decodes as 0 and each
missing color becomes black `(0, 0, 0)`. -/
theorem C7_amended_truncation_reads_zero (w h : ℕ) (flags : List Bool)
    (hw : w < 2 ^ 32) (hh : h < 2 ^ 32) (hf : flags.length < 2 ^ 32) :
    decodeImageData (toLE4 w ++ toLE4 h ++ encodeBitset flags)
      = (w, h, flags,
         List.replicate ((flags.filter fun f => !f).length) (0, 0, 0)) := by
  simp only [decodeImageData, List.append_assoc, toLE4_append_take,
    toLE4_append_drop, fromLE_toLE4 _ hw, fromLE_toLE4 _ hh,
    decodeBitset_encodeBitset' flags hf, readColors_nil]

/-- C7 amended witness: the truncated 1×1 single-leaf blob decodes to one
black color. -/
theorem C7_amended_witness :
    decodeImageData (toLE4 1 ++ toLE4 1 ++ encodeBitset [false])
      = (1, 1, [false], List.replicate 1 (0, 0, 0)) :=
  C7_amended_truncation_reads_zero 1 1 [false] (by norm_num) (by norm_num)
    (by norm_num)

/-- C8 counterexample: constructing the compressor from a 0×0 pixel buffer is
not rejected: it produces a compressor object whose root is a zero-sized leaf
queued in the priority structure, and even a subsequent `add_detail` call runs
without error (the zero-sized root is irreducible, so it is popped and stays a
leaf).  (In the source, numpy emits `RuntimeWarning`s and NaN statistics for
the empty slice rather than raising.) -/
theorem C8_zero_size_accepted_counterexample :
    (initCompressor ⟨0, 0, fun _ _ => (0, 0, 0)⟩).root
      = CTree.leaf (0, 0) (0, 0) (some (meanColor ⟨0, 0, fun _ _ => (0, 0, 0)⟩))
          (some ⟨0, 0, fun _ _ => (0, 0, 0)⟩) (detailOf ⟨0, 0, fun _ _ => (0, 0, 0)⟩)
  ∧ (initCompressor ⟨0, 0, fun _ _ => (0, 0, 0)⟩).areas
      = [([], detailOf ⟨0, 0, fun _ _ => (0, 0, 0)⟩)]
  ∧ (addDetail (initCompressor ⟨0, 0, fun _ _ => (0, 0, 0)⟩) 1 0).root
      = CTree.leaf (0, 0) (0, 0) (some (meanColor ⟨0, 0, fun _ _ => (0, 0, 0)⟩))
          none (detailOf ⟨0, 0, fun _ _ => (0, 0, 0)⟩)
  ∧ (addDetail (initCompressor ⟨0, 0, fun _ _ => (0, 0, 0)⟩) 1 0).areas = [] := by
  refine ⟨rfl, by simp [initCompressor, slAdd], ?_, ?_⟩ <;>
    (rw [addDetail_succ, addDetail_zero]
     unfold addDetailStep initCompressor
     norm_num [slAdd, subdivideAt, subdivideC, mkCompressNode])

/-- C8 amended: construction performs no geometry validation at all — for
every pixel buffer, including zero-sized ones, it unconditionally produces a
compressor whose root is a leaf of exactly the buffer's dimensions, queued in
the priority structure, and extraction then emits the single-leaf stream.
Negative dimensions are unrepresentable in a pixel buffer (numpy shapes are
nonnegative). -/
theorem C8_amended_no_validation (r : Region) :
    (initCompressor r).root
      = CTree.leaf (0, 0) (r.width, r.height) (some (meanColor r)) (some r)
          (detailOf r)
  ∧ (initCompressor r).areas = [([], detailOf r)]
  ∧ (initCompressor r).extract = ([false], [meanColor r]) := by
  refine ⟨rfl, by simp [initCompressor, slAdd], ?_⟩
  simp [CState.extract, initCompressor, mkCompressNode, extractData]

/-- C9: on the uniform 2×2 image of pixels `(10, 20, 30)` the root's detail is
0; `add_detail(1, 0)` subdivides the root into four 1×1 leaves and re-enqueues
none of them (their detail 0 is not strictly greater than the threshold 0), so
any subsequent `add_detail` call is a no-op; and the encoded blob decodes to
exactly 5 flags `true, false, false, false, false` and 4 colors, each
`(10, 20, 30)`. -/
theorem C9_uniform_2x2_scenario :
    detailAt (initCompressor img2).root [] = some 0
  ∧ (addDetail (initCompressor img2) 1 0).root.isSub = true
  ∧ leafRects (addDetail (initCompressor img2) 1 0).root
      = [((0, 0), (1, 1)), ((1, 0), (1, 1)), ((0, 1), (1, 1)), ((1, 1), (1, 1))]
  ∧ (addDetail (initCompressor img2) 1 0).areas = []
  ∧ (∀ (k : ℕ) (th : ℝ),
      addDetail (addDetail (initCompressor img2) 1 0) k th
        = addDetail (initCompressor img2) 1 0)
  ∧ decodeImageData (CState.encodeToBinary (addDetail (initCompressor img2) 1 0))
      = (2, 2, [true, false, false, false, false],
         [(10, 20, 30), (10, 20, 30), (10, 20, 30), (10, 20, 30)]) := by
  refine ⟨?_, ?_, ?_, ?_, ?_, ?_⟩
  · simp [initCompressor, mkCompressNode, detailAt, nodeAt, CTree.detail,
      detailOf_img2]
  · rw [addDetail_img2]
    rfl
  · rw [addDetail_img2]
    simp [s1img2, img2child, leafRects]
  · rw [addDetail_img2]
    rfl
  · intro k th
    rw [addDetail_img2]
    exact addDetail_empty _ k th rfl
  · rw [addDetail_img2]
    have hext : extractData s1img2.root
        = ([true, false, false, false, false],
           [(10, 20, 30), (10, 20, 30), (10, 20, 30), (10, 20, 30)]) := by
      simp [s1img2, img2child, extractData]
    have henc : CState.encodeToBinary s1img2
        = encodeImageData 2 2 [true, false, false, false, false]
            [(10, 20, 30), (10, 20, 30), (10, 20, 30), (10, 20, 30)] := by
      simp only [CState.encodeToBinary, CState.extract, hext,
        show s1img2.width = 2 from rfl, show s1img2.height = 2 from rfl]
    rw [henc, decodeImageData_encodeImageData 2 2 _ _ (by norm_num) (by norm_num)
      (by norm_num) (by decide) (by decide)]

/-- C10: `CompressNode.subdivide()` unconditionally releases the owned
pixel-region view: after every call the node's `image_data` is absent,
including calls that produce no children because the node was already
subdivided or its rectangle is irreducible; an irreducible leaf so popped
loses its pixel data while remaining a leaf (same color, not subdivided). -/
theorem C10_subdivide_releases_image (t : CTree) :
    (subdivideC t).1.img = none
  ∧ (t.isSub = true → (subdivideC t).2 = [] ∧ (subdivideC t).1.isSub = true)
  ∧ (t.isSub = false → t.size.1 ≤ 1 ∨ t.size.2 ≤ 1 →
      (subdivideC t).2 = [] ∧ (subdivideC t).1.isSub = false
        ∧ (subdivideC t).1.color = t.color) := by
  cases t with
  | node p s c i d bl br tl tr =>
    refine ⟨by simp [subdivideC, CTree.img], fun _ => by simp [subdivideC, CTree.isSub], ?_⟩
    intro hfalse
    simp [CTree.isSub] at hfalse
  | leaf p s c i d =>
    by_cases hs : s.1 ≤ 1 ∨ s.2 ≤ 1
    · refine ⟨by simp [subdivideC, hs, CTree.img], ?_, ?_⟩
      · intro htrue
        simp [CTree.isSub] at htrue
      · intro _ _
        simp [subdivideC, hs, CTree.isSub, CTree.color]
    · have hs' : ¬(CTree.size (CTree.leaf p s c i d)).1 ≤ 1
          ∨ True := Or.inr trivial
      refine ⟨?_, ?_, ?_⟩
      · cases i with
        | none => simp [subdivideC, hs, CTree.img]
        | some r => simp [subdivideC, hs, CTree.img]
      · intro htrue
        simp [CTree.isSub] at htrue
      · intro _ hsz
        simp only [CTree.size] at hsz
        exact absurd hsz hs

/-- C10 witness: an irreducible (1-wide) leaf that still owns its view: after
`subdivide` the view is gone, no children were produced, and it is still a
leaf. -/
theorem C10_release_witness :
    (subdivideC (CTree.leaf (0, 0) (1, 3) (some (1, 2, 3)) (some img2) 5)).1.img = none
  ∧ (subdivideC (CTree.leaf (0, 0) (1, 3) (some (1, 2, 3)) (some img2) 5)).2 = []
  ∧ (subdivideC (CTree.leaf (0, 0) (1, 3) (some (1, 2, 3)) (some img2) 5)).1.isSub
      = false := by
  have h := C10_subdivide_releases_image
    (CTree.leaf (0, 0) (1, 3) (some (1, 2, 3)) (some img2) 5)
  exact ⟨h.1, (h.2.2 rfl (Or.inl (by norm_num [CTree.size]))).1,
    (h.2.2 rfl (Or.inl (by norm_num [CTree.size]))).2.1⟩

end QuadTree
